import Mathlib

/-!
Verification development for the scabha configuration-templating and
schema-validation engine (`scabha/substitutions.py` and `scabha/validate.py`).

The Python code is shallowly embedded: `SubstitutionNamespace` becomes a tree
of named entries, the `{}`-interpolation done through Python's `str.format`
is modelled by an executable template interpreter over that tree, and the
driver `self_substitute` is modelled as a fuelled fixed-point loop returning
`Except`.  Python exceptions become values of an error type, mutation is
modelled by explicit state passing (the resolution pass threads the evolving
root namespace, exactly mirroring `subst or output` in the source), and the
per-node `_forgave_` sets are modelled as a path-indexed log threaded through
the pass, which `_collect_forgivens_` reads back during its tree walk.
-/

namespace Scabha

/-- The literal brace characters, kept as named constants. -/
def lbrace : Char := Char.ofNat 123

def rbrace : Char := Char.ofNat 125

/-- Sentinel U+00AB used by `_substitute_` to protect a doubled opening brace. -/
def sentL : Char := Char.ofNat 171

/-- Sentinel U+00BB used by `_substitute_` to protect a doubled closing brace. -/
def sentR : Char := Char.ofNat 187

/-- `SubstitutionNamespace.Properties`: per-entry policy flags
(`mutable`, `forgiving`).  The `updated` field of the dataclass is never read
by the code under consideration and is omitted. -/
structure Props where
  mutable : Bool
  forgiving : Bool
deriving DecidableEq, Repr

/-- Default `Properties()`: mutable and not forgiving. -/
def defaultProps : Props := { mutable := true, forgiving := false }

/-- Python exceptions that the substitution engine can raise or store. -/
inductive PyExc where
  /-- `KeyError(k)` from a missing top-level name in `str.format`. -/
  | keyError (k : String)
  /-- `AttributeError(a)` from `SubstitutionNamespace.__getattr__` (or from an
  attribute access on a non-namespace value; the payload is the attribute). -/
  | attributeError (a : String)
  /-- `ValueError` from malformed format strings (single stray braces, or a
  field form outside the modelled subset). -/
  | valueError (m : String)
  /-- `IndexError` from positional (automatic or numbered) fields, which have
  no positional arguments available. -/
  | indexError (m : String)
deriving DecidableEq, Repr

/-- `str(exc)` for the exceptions above: `KeyError` shows the repr of its key,
the others show their message/name. -/
def pyStrExc : PyExc → String
  | .keyError k => "'" ++ k ++ "'"
  | .attributeError a => a
  | .valueError m => m
  | .indexError m => m

mutual
/-- A value held by a namespace entry: a plain string, an `Error` string
(the `str` subclass from `scabha.validate`), a stored exception (written by a
failed formatting attempt), an opaque integer, or a child namespace. -/
inductive Value where
  | vstr (s : String)
  | verr (s : String)
  | vexc (e : PyExc)
  | vint (n : Int)
  | vns (n : NS)

/-- A `SubstitutionNamespace`: its own `_props_` and its ordered entries.
Per-node `_forgave_` sets are modelled externally as a path-indexed log. -/
inductive NS where
  | mk (props : Props) (entries : Entries)

/-- The ordered entries of a namespace; each entry carries the parent's
`_child_props_` record for its key. -/
inductive Entries where
  | nil
  | cons (name : String) (props : Props) (v : Value) (rest : Entries)
end

/-- The namespace's own `_props_`. -/
def NS.props : NS → Props
  | .mk p _ => p

/-- The namespace's ordered entries. -/
def NS.entries : NS → Entries
  | .mk _ es => es

/-- Dictionary lookup (`name in self` / `super().get(name)`): first entry with
the given key. -/
def Entries.find : Entries → String → Option Value
  | .nil, _ => none
  | .cons n _ v rest, key => if n = key then some v else rest.find key

/-- `OrderedDict.__setitem__`: replace the value of an existing key in place,
otherwise append a new entry (with the given props, used only when absent). -/
def Entries.set : Entries → String → Value → Entries
  | .nil, key, v => .cons key defaultProps v .nil
  | .cons n p w rest, key, v =>
      if n = key then .cons n p v rest else .cons n p w (rest.set key v)

/-- The list of entry keys, in order. -/
def Entries.names : Entries → List String
  | .nil => []
  | .cons n _ _ rest => n :: rest.names

def NS.find (n : NS) (key : String) : Option Value := n.entries.find key

def NS.set (n : NS) (key : String) (v : Value) : NS :=
  .mk n.props (n.entries.set key v)

/-- The log of forgiven lookups: each record is the entry-path of the node on
which `__getattr__` forgave, together with the forgiven name.  This models the
union of all per-node `_forgave_` sets. -/
abbrev Log : Type := List (List String × String)

mutual
/-- `repr` of a value as Python would show it inside a namespace repr:
strings quoted, exceptions as `Type('arg')`, namespaces recursively. -/
def reprValue : Value → String
  | .vstr s => "'" ++ s ++ "'"
  | .verr s => "'" ++ s ++ "'"
  | .vexc e => match e with
      | .keyError k => "KeyError('" ++ k ++ "')"
      | .attributeError a => "AttributeError('" ++ a ++ "')"
      | .valueError m => "ValueError('" ++ m ++ "')"
      | .indexError m => "IndexError('" ++ m ++ "')"
  | .vint n => toString n
  | .vns n => reprNS n

/-- `str`/`repr` of a namespace, in the `OrderedDict`-subclass style
`SubstitutionNamespace([('k', v), ...])`. -/
def reprNS : NS → String
  | .mk _ es => "SubstitutionNamespace([" ++ reprEntries es ++ "])"

def reprEntries : Entries → String
  | .nil => ""
  | .cons n _ v .nil => "('" ++ n ++ "', " ++ reprValue v ++ ")"
  | .cons n _ v rest =>
      "('" ++ n ++ "', " ++ reprValue v ++ "), " ++ reprEntries rest
end

/-- How `str.format` renders a field's final value with an empty format spec:
strings stand for themselves, other values via `str()`. -/
def renderValue : Value → String
  | .vstr s => s
  | .verr s => s
  | .vexc e => pyStrExc e
  | .vint n => toString n
  | .vns n => reprNS n

/-- `SubstitutionNamespace.__getattr__(name)` on node `n` sitting at entry-path
`path`: return the entry if present; otherwise, if the node is forgiving,
return the placeholder `(name)` and record the forgiven name against the node;
otherwise raise `AttributeError(name)`. -/
def getattrNS (n : NS) (name : String) (path : List String) (log : Log) :
    Except PyExc Value × Log :=
  match n.find name with
  | some v => (.ok v, log)
  | none =>
      if n.props.forgiving then
        (.ok (.vstr ("(" ++ name ++ ")")), log ++ [(path, name)])
      else (.error (.attributeError name), log)

/-- The chain of attribute accesses performed by `str.format` for a dotted
field `a.b.c` after the first component has been looked up.  An attribute
access on a non-namespace value raises `AttributeError` (real string
attributes are outside the modelled template subset). -/
def lookupAttrs : Value → List String → List String → Log →
    Except PyExc Value × Log
  | v, [], _, log => (.ok v, log)
  | .vns n, p :: rest, path, log =>
      match getattrNS n p path log with
      | (.ok v, log') => lookupAttrs v rest (path ++ [p]) log'
      | (.error e, log') => (.error e, log')
  | _, p :: _, _, log => (.error (.attributeError p), log)

/-- Resolution of one replacement field: the first component is a plain
keyword lookup in the unpacked namespace (`format(**ns)` — a missing key is a
`KeyError`, with no forgiveness at this level), the rest are attribute
accesses. -/
def lookupField (ctx : NS) : List String → Log → Except PyExc Value × Log
  | [], log => (.error (.indexError "Replacement index 0 out of range"), log)
  | p0 :: rest, log =>
      match ctx.find p0 with
      | some v => lookupAttrs v rest [p0] log
      | none => (.error (.keyError p0), log)

/-- A field is outside the modelled template subset if it carries a conversion
(`!`), a format spec (`:`), an index (`[`), or a nested opening brace. -/
def fieldUnsupported (f : List Char) : Bool :=
  f.any (fun ch => ch = ':' || ch = '!' || ch = '[' || ch = lbrace)

/-- Positional fields (empty or all-digit first component) have no positional
arguments to refer to under `format(**ns)`. -/
def fieldPositional (p0 : String) : Bool :=
  p0.toList.all Char.isDigit

/-- Split a field name at the dots, as Python's field-name parser does. -/
def splitDotsAux : List Char → List Char → List String
  | [], acc => [String.mk acc.reverse]
  | c :: cs, acc =>
      if c = '.' then String.mk acc.reverse :: splitDotsAux cs []
      else splitDotsAux cs (c :: acc)

def splitDots (cs : List Char) : List String := splitDotsAux cs []

/-- Resolve one replacement field (the text between the braces): reject the
unsupported forms, reject positional fields (no positional arguments exist
under `format(**ns)`), then look the dotted path up in the namespace. -/
def resolveField (ctx : NS) (field : List Char) (log : Log) :
    Except PyExc Value × Log :=
  if fieldUnsupported field then
    (.error (.valueError "unexpected char in replacement field"), log)
  else
    match splitDots field with
    | [] => (.error (.indexError "Replacement index 0 out of range"), log)
    | p0 :: prest =>
        if fieldPositional p0 then
          (.error (.indexError "Replacement index 0 out of range"), log)
        else lookupField ctx (p0 :: prest) log

/-- Parser state for the `str.format` scanner: inside literal text, inside a
replacement field (chars so far, in reverse), or just after a closing brace
in literal text (which must be doubled). -/
inductive FmtMode where
  | lit
  | field (acc : List Char)
  | closing
deriving DecidableEq, Repr

/-- The core of Python's `str.format(**ctx)` on the modelled template subset,
one character at a time: literal text is copied, `\x7b\x7b`/`\x7d\x7d` become
single braces, a replacement field `\x7bname.attr...\x7d` is resolved through
`resolveField` and rendered with `renderValue`; stray single braces and
malformed fields raise. -/
def pyFormatAux (ctx : NS) : List Char → FmtMode → Log →
    Except PyExc (List Char) × Log
  | [], .lit, log => (.ok [], log)
  | [], .field _, log =>
      (.error (.valueError "Single '\x7b' encountered in format string"), log)
  | [], .closing, log =>
      (.error (.valueError "Single '\x7d' encountered in format string"), log)
  | c :: cs, .lit, log =>
      if c = lbrace then pyFormatAux ctx cs (.field []) log
      else if c = rbrace then pyFormatAux ctx cs .closing log
      else
        match pyFormatAux ctx cs .lit log with
        | (.ok out, log') => (.ok (c :: out), log')
        | (.error e, log') => (.error e, log')
  | c :: cs, .closing, log =>
      if c = rbrace then
        match pyFormatAux ctx cs .lit log with
        | (.ok out, log') => (.ok (rbrace :: out), log')
        | (.error e, log') => (.error e, log')
      else (.error (.valueError "Single '\x7d' encountered in format string"), log)
  | c :: cs, .field f, log =>
      if c = lbrace ∧ f = [] then
        match pyFormatAux ctx cs .lit log with
        | (.ok out, log') => (.ok (lbrace :: out), log')
        | (.error e, log') => (.error e, log')
      else if c = rbrace then
        match resolveField ctx f.reverse log with
        | (.ok v, log') =>
            match pyFormatAux ctx cs .lit log' with
            | (.ok out, log'') => (.ok ((renderValue v).toList ++ out), log'')
            | (.error e, log'') => (.error e, log'')
        | (.error e, log') => (.error e, log')
      else pyFormatAux ctx cs (.field (c :: f)) log

/-- `s.format(**ctx)` on a whole string. -/
def pyFormat (ctx : NS) (s : String) (log : Log) : Except PyExc String × Log :=
  match pyFormatAux ctx s.toList .lit log with
  | (.ok cs, log') => (.ok (String.mk cs), log')
  | (.error e, log') => (.error e, log')

/-- The empty namespace (used to model no-argument `s.format()`:
every replacement field then fails, doubled braces still collapse). -/
def emptyNS : NS := .mk defaultProps .nil

/-- `multireplace(value, dict-of-doubled-braces-to-sentinels)`: a left-to-right
single pass turning `\x7b\x7b` into U+00AB and `\x7d\x7d` into U+00BB. -/
def protectBraces : List Char → List Char
  | [] => []
  | [c] => [c]
  | c :: c2 :: cs2 =>
      if c = lbrace ∧ c2 = lbrace then sentL :: protectBraces cs2
      else if c = rbrace ∧ c2 = rbrace then sentR :: protectBraces cs2
      else c :: protectBraces (c2 :: cs2)

/-- `multireplace(newvalue, sentinels-back-to-doubled-braces)`. -/
def restoreBraces : List Char → List Char
  | [] => []
  | c :: cs =>
      if c = sentL then lbrace :: lbrace :: restoreBraces cs
      else if c = sentR then rbrace :: rbrace :: restoreBraces cs
      else c :: restoreBraces cs

/-- Helper to build entry lists from ordinary lists. -/
def Entries.ofList : List (String × Props × Value) → Entries
  | [] => .nil
  | (n, p, v) :: rest => .cons n p v (Entries.ofList rest)

/-- A namespace with default own-properties. -/
def NS.of (l : List (String × Props × Value)) : NS :=
  .mk defaultProps (Entries.ofList l)

/-- One string substitution attempt as done for a string entry containing a
brace: protect doubled braces, `format` against the lookup namespace, restore
the protected braces. -/
def substituteString (ctx : NS) (s : String) (log : Log) :
    Except PyExc String × Log :=
  match pyFormatAux ctx (protectBraces s.toList) .lit log with
  | (.ok cs, log') => (.ok (String.mk (restoreBraces cs)), log')
  | (.error e, log') => (.error e, log')

/-- The entry loop of `_substitute_(self, subst=None)`: iterates over the
snapshot of the node's entries with the accumulated output `out` (the
copy-on-write output of the source, modelled by value passing).  Lookups go
against `subst.getD out` — exactly the source's `subst or output`, so at the
driver's root call (`subst = none`) later entries see earlier updates, while
below the root the fixed root context is used.  A string entry with a brace
is formatted (a failure stores the exception at the entry and counts as
updated and unresolved), a mutable namespace child is recursed into with
`subst or output` as its context, a stored exception just counts as
unresolved, anything else is skipped. -/
def substEntries : Entries → NS → Option NS → Log → NS × Nat × Nat × Log
  | .nil, out, _, log => (out, 0, 0, log)
  | .cons name props v rest, out, subst, log =>
      match v with
      | .vstr s =>
          if lbrace ∈ s.toList then
            match substituteString (subst.getD out) s log with
            | (.ok new, log') =>
                if new = s then substEntries rest out subst log'
                else
                  let (o, u, r, l) := substEntries rest (out.set name (.vstr new)) subst log'
                  (o, u + 1, r, l)
            | (.error e, log') =>
                let (o, u, r, l) := substEntries rest (out.set name (.vexc e)) subst log'
                (o, u + 1, r + 1, l)
          else substEntries rest out subst log
      | .vns c =>
          if props.mutable then
            match c with
            | .mk pc esc =>
                let (c', u1, r1, log') :=
                  substEntries esc (.mk pc esc) (some (subst.getD out)) log
                let (o, u, r, l) :=
                  substEntries rest (if u1 = 0 then out else out.set name (.vns c')) subst log'
                (o, u + u1, r + r1, l)
          else substEntries rest out subst log
      | .vexc _ =>
          let (o, u, r, l) := substEntries rest out subst log
          (o, u, r + 1, l)
      | .verr _ => substEntries rest out subst log
      | .vint _ => substEntries rest out subst log

/-- `SubstitutionNamespace._substitute_(subst)` for a child namespace reached
during a pass: the node's entry loop started on a snapshot of its entries,
with the node itself as the initial output and a fixed lookup context. -/
def substNode (n : NS) (ctx : NS) (log : Log) : NS × Nat × Nat × Log :=
  match n with
  | .mk p es => substEntries es (.mk p es) (some ctx) log

/-- `ns._substitute_()` as invoked by the driver: one resolution pass over the
namespace, returning the output namespace, the count of updated entries, the
count of unresolved entries, and the forgiven-lookup log. -/
def substRoot (n : NS) (log : Log) : NS × Nat × Nat × Log :=
  match n with
  | .mk p es => substEntries es (.mk p es) none log

/-- The entry loop of `_finalize_braces_`: every string entry (the `Error`
string subclass included) is `format()`-ed with no arguments — collapsing
doubled braces; any remaining replacement field raises, and the exception
propagates — and mutable namespace children are recursed into.  The boolean
tracks whether any entry changed (the source detects a changed child by
object identity of the returned copy). -/
def finalizeEntries : Entries → NS → Bool → Except PyExc (NS × Bool)
  | .nil, out, acc => .ok (out, acc)
  | .cons name props v rest, out, acc =>
      match v with
      | .vns c =>
          if props.mutable then
            match c with
            | .mk pc esc =>
                match finalizeEntries esc (.mk pc esc) false with
                | .error e => .error e
                | .ok (c', changed) =>
                    if changed then finalizeEntries rest (out.set name (.vns c')) true
                    else finalizeEntries rest out acc
          else finalizeEntries rest out acc
      | .vstr s =>
          match (pyFormatAux emptyNS s.toList .lit []).1 with
          | .error e => .error e
          | .ok cs =>
              if String.mk cs = s then finalizeEntries rest out acc
              else finalizeEntries rest (out.set name (.vstr (String.mk cs))) true
      | .verr s =>
          match (pyFormatAux emptyNS s.toList .lit []).1 with
          | .error e => .error e
          | .ok cs =>
              if String.mk cs = s then finalizeEntries rest out acc
              else finalizeEntries rest (out.set name (.vstr (String.mk cs))) true
      | .vexc _ => finalizeEntries rest out acc
      | .vint _ => finalizeEntries rest out acc

/-- `_finalize_braces_` on a node. -/
def finalizeNode : NS → Except PyExc (NS × Bool)
  | .mk p es => finalizeEntries es (.mk p es) false

/-- Keep the first occurrence of every name (set-like dedup of the names
recorded for one node). -/
def dedupFirst : List String → List String
  | [] => []
  | x :: xs => x :: (dedupFirst xs).filter (fun y => y ≠ x)

/-- The forgiven names recorded for the node at entry-path `path`, qualified
by its display name `own` (each name once, as the source keeps a set). -/
def collectOwn (log : Log) (path : List String) (own : String) : List String :=
  (dedupFirst ((log.filter (fun e => e.1 = path)).map (fun e => e.2))).map
    (fun key => own ++ "." ++ key)

/-- The children part of `_collect_forgivens_`: recurse into every namespace
child (mutable or not), qualifying its display name by the parent's. -/
def collectChildren (log : Log) : Entries → List String → Option String →
    List String
  | .nil, _, _ => []
  | .cons n _ v rest, path, pname =>
      (match v with
       | .vns c =>
           match c with
           | .mk _ esc =>
               collectOwn log (path ++ [n])
                 (match pname with
                  | none => n
                  | some nm => nm ++ "." ++ n)
               ++ collectChildren log esc (path ++ [n])
                    (some (match pname with
                           | none => n
                           | some nm => nm ++ "." ++ n))
       | _ => []) ++ collectChildren log rest path pname

/-- `_collect_forgivens_(name)`: the node's own recorded names (with the
display name defaulting to `.`) followed by the children's, in entry order. -/
def collectNode (log : Log) (path : List String) (pname : Option String)
    (n : NS) : List String :=
  match n with
  | .mk _ es => collectOwn log path (pname.getD ".") ++ collectChildren log es path pname

/-- The `for i in range(10)` fixed-point loop of `self_substitute`: `none`
models the for-else `raise` (every available pass still reported updates);
otherwise the final namespace, the unresolved count of the breaking
(zero-update) pass, the forgiven log, and the number of passes run. -/
def substLoop : Nat → NS → Log → Option (NS × Nat × Log × Nat)
  | 0, _, _ => none
  | fuel + 1, n, log =>
      let (n', u, r, log') := substRoot n log
      if u = 0 then some (n', r, log', 1)
      else
        match substLoop fuel n' log' with
        | none => none
        | some (n'', r'', log'', k) => some (n'', r'', log'', k + 1)

/-- How a `self_substitute` call can fail: the explicit `SubstitutionError`
raised at the iteration cap, or an uncaught Python exception escaping
`_finalize_braces_`. -/
inductive DriverErr where
  | substitutionError (msg : String)
  | pyExc (e : PyExc)
deriving DecidableEq, Repr

/-- The message of the `SubstitutionError` raised at the iteration cap. -/
def substitutionErrorMsg : String :=
  "recursion limit exceeded while evaluating \x7b\x7d-substitutions. This is usally caused by cyclic (cross-)substitutions."

/-- `self_substitute(ns, name)`: clear the forgiven bookkeeping (the log
starts empty), run the resolution pass to a fixed point with a cap of 10
passes (raising `SubstitutionError` if the cap is exhausted while updates
still occur), then finalize braces (an exception there propagates uncaught)
and return the namespace, the unresolved count and the collected forgiven
names. -/
def selfSubstitute (n : NS) (name : Option String) :
    Except DriverErr (NS × Nat × List String) :=
  match substLoop 10 n [] with
  | none => .error (.substitutionError substitutionErrorMsg)
  | some (n1, r, log, _) =>
      match finalizeNode n1 with
      | .error e => .error (.pyExc e)
      | .ok (n2, _) => .ok (n2, r, collectNode log [] name n2)

/-! ## The schema validator (`scabha/validate.py`) -/

/-- A raw or validated parameter value: a plain string (which also stands for
the `File`/`Directory`/`MS` `str` subclasses once validated), an `Error`
string, an `Unresolved(value)` marker, a list of strings, or an opaque
integer. -/
inductive PValue where
  | pstr (s : String)
  | perr (s : String)
  | punres (s : String)
  | plist (xs : List String)
  | pint (n : Int)
deriving DecidableEq, Repr

/-- The fields of a parameter schema that `validate_parameters` reads:
`dtype`, `required`, `default` (`None` modelled as `none`) and `choices`
(an empty list is falsy, disabling the check, like the `()` default). -/
structure PSchema where
  dtype : String
  required : Bool
  default : Option PValue
  choices : List String
deriving DecidableEq, Repr

/-- Generic association-list lookup (Python dict lookup by key). -/
def alookup {α : Type} : List (String × α) → String → Option α
  | [], _ => none
  | (n, x) :: rest, key => if n = key then some x else alookup rest key

/-- Python dict `d[k] = v`: replace the first binding of the key, else
append. -/
def aset {α : Type} : List (String × α) → String → α → List (String × α)
  | [], key, x => [(key, x)]
  | (n, y) :: rest, key, x =>
      if n = key then (n, x) :: rest else (n, y) :: aset rest key x

/-- `d.update(**extra)` on association lists. -/
def aupdate {α : Type} (base extra : List (String × α)) : List (String × α) :=
  extra.foldl (fun acc p => aset acc p.1 p.2) base

/-- The semantic parameter types produced by `eval(schema.dtype, globals())`
for the type names the repository's schemas use. -/
inductive Dtype where
  | dstr
  | dint
  | dfile
  | ddir
  | dms
  | dlistfile
  | dlistdir
  | dlistms
deriving DecidableEq, Repr

/-- `eval(schema.dtype, globals())`, modelled as a table over the dtype names
used with this validator; any other name is a schema error. -/
def parseDtype : String → Option Dtype
  | "str" => some .dstr
  | "int" => some .dint
  | "File" => some .dfile
  | "Directory" => some .ddir
  | "MS" => some .dms
  | "List[File]" => some .dlistfile
  | "List[Directory]" => some .dlistdir
  | "List[MS]" => some .dlistms
  | _ => none

/-- `dtype in (File, Directory, MS)`. -/
def isFileD : Dtype → Bool
  | .dfile | .ddir | .dms => true
  | _ => false

/-- `dtype in (List[File], List[Directory], List[MS])`. -/
def isFileListD : Dtype → Bool
  | .dlistfile | .dlistdir | .dlistms => true
  | _ => false

/-- The filesystem as seen by the validator: glob expansion (returning only
existing paths, as `glob.glob` does) and the `os.path.isfile`/`isdir`
probes. -/
structure FS where
  glob : String → List String
  isfile : String → Bool
  isdir : String → Bool

/-- How an f-string renders a parameter value (`str(value)`). -/
def renderPV : PValue → String
  | .pstr s => s
  | .perr s => s
  | .punres s => "Unresolved(" ++ s ++ ")"
  | .plist xs =>
      "[" ++ String.intercalate ", " (xs.map (fun x => "'" ++ x ++ "'")) ++ "]"
  | .pint n => toString n

/-- `type(value)` as rendered into the invalid-type message. -/
def pyTypeName : PValue → String
  | .pstr _ => "<class 'str'>"
  | .perr _ => "<class 'scabha.validate.Error'>"
  | .punres _ => "<class 'scabha.validate.Unresolved'>"
  | .plist _ => "<class 'list'>"
  | .pint _ => "<class 'int'>"

/-- The pydantic-dataclass validation of one field, for the modelled dtypes:
`str`-family fields accept strings (the `Error` subclass included) and
stringify numbers, `int` fields parse integer strings, list fields require
lists.  The message is the per-field reason collected into the aggregated
error. -/
def coerce : Dtype → PValue → Except String PValue
  | .dstr, .pstr s => .ok (.pstr s)
  | .dstr, .perr s => .ok (.perr s)
  | .dstr, .pint n => .ok (.pstr (toString n))
  | .dstr, _ => .error "str type expected"
  | .dint, .pint n => .ok (.pint n)
  | .dint, .pstr s =>
      match s.toInt? with
      | some n => .ok (.pint n)
      | none => .error "value is not a valid integer"
  | .dint, .perr s =>
      match s.toInt? with
      | some n => .ok (.pint n)
      | none => .error "value is not a valid integer"
  | .dint, _ => .error "value is not a valid integer"
  | .dfile, .pstr s => .ok (.pstr s)
  | .dfile, .perr s => .ok (.perr s)
  | .dfile, .pint n => .ok (.pstr (toString n))
  | .dfile, _ => .error "str type expected"
  | .ddir, .pstr s => .ok (.pstr s)
  | .ddir, .perr s => .ok (.perr s)
  | .ddir, .pint n => .ok (.pstr (toString n))
  | .ddir, _ => .error "str type expected"
  | .dms, .pstr s => .ok (.pstr s)
  | .dms, .perr s => .ok (.perr s)
  | .dms, .pint n => .ok (.pstr (toString n))
  | .dms, _ => .error "str type expected"
  | .dlistfile, .plist xs => .ok (.plist xs)
  | .dlistfile, _ => .error "value is not a valid list"
  | .dlistdir, .plist xs => .ok (.plist xs)
  | .dlistdir, _ => .error "value is not a valid list"
  | .dlistms, .plist xs => .ok (.plist xs)
  | .dlistms, _ => .error "value is not a valid list"

/-- Membership for the choices check (`value not in schema.choices`, which is
Python `==` against each choice): only string-like values can equal a string
choice. -/
def choiceMember (v : PValue) (choices : List String) : Bool :=
  match v with
  | .pstr s => choices.contains s
  | .perr s => choices.contains s
  | _ => false

/-- `join_quote(values)`. -/
def joinQuote (vs : List String) : String :=
  match vs with
  | [] => ""
  | _ => "'" ++ String.intercalate "', '" vs ++ "'"

/-- The error kinds `validate_parameters` raises. -/
inductive VErr where
  | parameterValidationError (msg : String)
  | schemaError (msg : String)
deriving DecidableEq, Repr

/-- `re.search("\x7b[^\x7b]", value)`: an opening brace followed by a
character that is not another opening brace. -/
def hasLoneBrace : List Char → Bool
  | [] => false
  | [_] => false
  | c :: c2 :: cs =>
      if c = lbrace ∧ c2 ≠ lbrace then true else hasLoneBrace (c2 :: cs)

/-- A value in the caller-supplied substitution context of
`validate_parameters` (or in the OmegaConf `self` namespace): a string, an
integer, a nested mapping (DictConfig-like: missing attributes raise
`ConfigAttributeError`), or a list. -/
inductive CVal where
  | cstr (s : String)
  | cint (n : Int)
  | cmap (m : List (String × CVal))
  | clist (xs : List CVal)

/-- How an exception in the validator's substitution loop is classified:
`ConfigAttributeError` (caught specially, carrying the missing key) or any
other exception (carrying its `str`). -/
inductive VExc where
  | configAttr (key : String)
  | other (msg : String)
deriving DecidableEq, Repr

/-- `str()` of a context value as `str.format` inserts it (nested containers
are rendered coarsely; the contexts the repository builds are flat maps of
strings). -/
def renderCVal : CVal → String
  | .cstr s => s
  | .cint n => toString n
  | .cmap _ => "\x7b...\x7d"
  | .clist xs =>
      "[" ++ String.intercalate ", "
        (xs.map (fun x => match x with
          | .cstr s => "'" ++ s ++ "'"
          | .cint n => toString n
          | _ => "...")) ++ "]"

/-- The attribute chain of a dotted field over context values: mappings
behave like DictConfig (missing key raises `ConfigAttributeError`), anything
else has no such attribute. -/
def cLookupAttrs : CVal → List String → Except VExc CVal
  | v, [] => .ok v
  | .cmap m, p :: rest =>
      match alookup m p with
      | some v => cLookupAttrs v rest
      | none => .error (.configAttr p)
  | _, p :: _ => .error (.other p)

/-- Resolution of one replacement field against `subst1` (the caller's
substitution dict with `self` bound to the evolving parameter map): a
missing top-level key is a `KeyError` (rendered `'key'` by `str`). -/
def cResolveField (subst : List (String × CVal)) (selfMap : List (String × CVal))
    (field : List Char) : Except VExc CVal :=
  if fieldUnsupported field then .error (.other "unexpected char in replacement field")
  else
    match splitDots field with
    | [] => .error (.other "Replacement index 0 out of range")
    | p0 :: prest =>
        if fieldPositional p0 then .error (.other "Replacement index 0 out of range")
        else if p0 = "self" then cLookupAttrs (.cmap selfMap) prest
        else
          match alookup subst p0 with
          | some v => cLookupAttrs v prest
          | none => .error (.other ("'" ++ p0 ++ "'"))

/-- `value.format(**subst1)` for the validator's substitution loop: the same
scanner as `pyFormatAux`, over context values. -/
def cFormatAux (subst : List (String × CVal)) (selfMap : List (String × CVal)) :
    List Char → FmtMode → Except VExc (List Char)
  | [], .lit => .ok []
  | [], .field _ =>
      .error (.other "Single '\x7b' encountered in format string")
  | [], .closing =>
      .error (.other "Single '\x7d' encountered in format string")
  | c :: cs, .lit =>
      if c = lbrace then cFormatAux subst selfMap cs (.field [])
      else if c = rbrace then cFormatAux subst selfMap cs .closing
      else
        match cFormatAux subst selfMap cs .lit with
        | .ok out => .ok (c :: out)
        | .error e => .error e
  | c :: cs, .closing =>
      if c = rbrace then
        match cFormatAux subst selfMap cs .lit with
        | .ok out => .ok (rbrace :: out)
        | .error e => .error e
      else .error (.other "Single '\x7d' encountered in format string")
  | c :: cs, .field f =>
      if c = lbrace ∧ f = [] then
        match cFormatAux subst selfMap cs .lit with
        | .ok out => .ok (lbrace :: out)
        | .error e => .error e
      else if c = rbrace then
        match cResolveField subst selfMap f.reverse with
        | .ok v =>
            match cFormatAux subst selfMap cs .lit with
            | .ok out => .ok ((renderCVal v).toList ++ out)
            | .error e => .error e
        | .error e => .error e
      else cFormatAux subst selfMap cs (.field (c :: f))

def cFormat (subst : List (String × CVal)) (selfMap : List (String × CVal))
    (s : String) : Except VExc String :=
  match cFormatAux subst selfMap s.toList .lit with
  | .ok cs => .ok (String.mk cs)
  | .error e => .error e

/-- `OmegaConf.create(inputs)`: the initial `self` namespace built from the
defaulted concrete inputs. -/
def toCVal : PValue → CVal
  | .pstr s => .cstr s
  | .perr s => .cstr s
  | .punres s => .cstr s
  | .plist xs => .clist (xs.map .cstr)
  | .pint n => .cint n

/-- One pass of the validator's substitution loop: each plain (non-`Error`)
string input is formatted against `subst1`; a `ConfigAttributeError` stores
`Error("ERR (key)")` and writes `ERR (key)` into `self`, any other exception
stores `Error(str(exc))` and writes `ERR`; the input is updated (and the pass
marked changed) only when the new value differs from the old string. -/
def vSubstPass (subst : List (String × CVal)) :
    List (String × PValue) → List (String × CVal) → Bool →
    List (String × PValue) × List (String × CVal) × Bool
  | [], selfMap, changed => ([], selfMap, changed)
  | (name, v) :: rest, selfMap, changed =>
      match v with
      | .pstr s =>
          match cFormat subst selfMap s with
          | .ok new =>
              let selfMap' := aset selfMap name (.cstr new)
              if new = s then
                let (r, sm, ch) := vSubstPass subst rest selfMap' changed
                ((name, v) :: r, sm, ch)
              else
                let (r, sm, ch) := vSubstPass subst rest selfMap' true
                ((name, .pstr new) :: r, sm, ch)
          | .error (.configAttr k) =>
              let msg := "ERR (" ++ k ++ ")"
              let selfMap' := aset selfMap name (.cstr msg)
              if msg = s then
                let (r, sm, ch) := vSubstPass subst rest selfMap' changed
                ((name, v) :: r, sm, ch)
              else
                let (r, sm, ch) := vSubstPass subst rest selfMap' true
                ((name, .perr msg) :: r, sm, ch)
          | .error (.other m) =>
              let selfMap' := aset selfMap name (.cstr "ERR")
              if m = s then
                let (r, sm, ch) := vSubstPass subst rest selfMap' changed
                ((name, v) :: r, sm, ch)
              else
                let (r, sm, ch) := vSubstPass subst rest selfMap' true
                ((name, .perr m) :: r, sm, ch)
      | _ =>
          let (r, sm, ch) := vSubstPass subst rest selfMap changed
          ((name, v) :: r, sm, ch)

/-- The `for i in range(10)` loop of the validator's substitution step:
`none` models the for-else `raise`. -/
def vSubstLoop (subst : List (String × CVal)) :
    Nat → List (String × PValue) → List (String × CVal) →
    Option (List (String × PValue))
  | 0, _, _ => none
  | fuel + 1, inputs, selfMap =>
      let (inputs', selfMap', changed) := vSubstPass subst inputs selfMap false
      if changed then vSubstLoop subst fuel inputs' selfMap'
      else some inputs'

/-- The message of the `ParameterValidationError` raised when the validator's
substitution loop exhausts its cap. -/
def vSubstLoopErrorMsg : String :=
  "recursion limit exceeded while evaluating \x7b\x7d-substitutions. This is usally caused by cyclic (cross-)references."

/-- The unknown-parameter scan: the first key of `params` that is absent from
`schemas` (the source raises at the first offender). -/
def firstUnknown (params : List (String × PValue))
    (schemas : List (String × PSchema)) : Option String :=
  match params with
  | [] => none
  | (n, _) :: rest =>
      if (alookup schemas n).isNone then some n else firstUnknown rest schemas

/-- Is this value an `Unresolved` marker (`type(value) is Unresolved`)? -/
def isUnres : PValue → Bool
  | .punres _ => true
  | _ => false

/-- Filling in missing defaults: for every schema entry absent from the
concrete inputs, take the caller default first, else the schema's own
(non-`None`) default; new entries are appended in schema order. -/
def addDefaults (defaults : List (String × PValue)) :
    List (String × PSchema) → List (String × PValue) → List (String × PValue)
  | [], inputs => inputs
  | (n, sch) :: rest, inputs =>
      if (alookup inputs n).isSome then addDefaults defaults rest inputs
      else
        match alookup defaults n with
        | some d => addDefaults defaults rest (inputs ++ [(n, d)])
        | none =>
            match sch.default with
            | some d => addDefaults defaults rest (inputs ++ [(n, d)])
            | none => addDefaults defaults rest inputs

/-- The `subst is None` branch: move every plain string input with an
un-doubled opening brace out of the inputs and into the unresolved map as
`Unresolved(value)`. -/
def moveUnresolved :
    List (String × PValue) → List (String × PValue) × List (String × PValue)
  | [] => ([], [])
  | (n, v) :: rest =>
      let (ins, unr) := moveUnresolved rest
      match v with
      | .pstr s =>
          if hasLoneBrace s.toList then (ins, (n, .punres s) :: unr)
          else ((n, v) :: ins, unr)
      | _ => ((n, v) :: ins, unr)

/-- The names of required schema entries with neither a concrete nor an
unresolved value, in schema order (the source names all of them at once). -/
def requiredMissing (schemas : List (String × PSchema))
    (inputs unresolved : List (String × PValue)) : List String :=
  (schemas.filter (fun p =>
     p.2.required && (alookup inputs p.1).isNone && (alookup unresolved p.1).isNone)).map
    (fun p => p.1)

/-- Building the dynamic dataclass fields: for every schema entry with a
concrete input, resolve its declared dtype (an unknown name is a
`SchemaError`, raised at the first offender). -/
def buildFields (inputs : List (String × PValue)) :
    List (String × PSchema) → Except VErr (List (String × Dtype))
  | [] => .ok []
  | (n, sch) :: rest =>
      if (alookup inputs n).isSome then
        match parseDtype sch.dtype with
        | none => .error (.schemaError ("invalid " ++ n ++ ".dtype = " ++ sch.dtype))
        | some dt =>
            match buildFields inputs rest with
            | .error e => .error e
            | .ok fs => .ok ((n, dt) :: fs)
      else buildFields inputs rest

/-- The file-resolution loop over the inputs: for file-typed parameters a
string value is glob-expanded and a list value taken as-is; an empty match
set fails when the schema is required and existence checking is on, and is
otherwise coerced to an empty list/string with the remaining checks skipped;
scalar file types demand exactly one match of the declared kind, list file
types demand every match be of the declared kind.  `Error` values and
parameters without a schema are skipped. -/
def fileResolve (schemas : List (String × PSchema))
    (fields : List (String × Dtype)) (check_exist : Bool) (fs : FS) :
    List (String × PValue) → Except VErr (List (String × PValue))
  | [] => .ok []
  | (name, v) :: rest =>
      let keep : Except VErr (List (String × PValue)) :=
        match fileResolve schemas fields check_exist fs rest with
        | .error e => .error e
        | .ok r => .ok ((name, v) :: r)
      match alookup schemas name with
      | none => keep
      | some sch =>
          match v with
          | .perr _ => keep
          | _ =>
              match alookup fields name with
              | none => keep
              | some dt =>
                  if isFileD dt ∨ isFileListD dt then
                    match (match v with
                           | .pstr s => .ok (fs.glob s)
                           | .plist xs => .ok xs
                           | _ => .error (.parameterValidationError
                               (name ++ ": invalid type '" ++ pyTypeName v ++ "'")) :
                           Except VErr (List String)) with
                    | .error e => .error e
                    | .ok files =>
                        match files with
                        | [] =>
                            if sch.required ∧ check_exist then
                              .error (.parameterValidationError
                                (name ++ ": nothing matches '" ++ renderPV v ++ "'"))
                            else
                              match fileResolve schemas fields check_exist fs rest with
                              | .error e => .error e
                              | .ok r =>
                                  .ok ((name, if isFileListD dt then .plist [] else .pstr "") :: r)
                        | f :: frest =>
                            if isFileD dt then
                              if frest ≠ [] then
                                .error (.parameterValidationError
                                  (name ++ ": multiple matches to '" ++ renderPV v ++ "'"))
                              else if dt = .dfile then
                                if fs.isfile f then
                                  match fileResolve schemas fields check_exist fs rest with
                                  | .error e => .error e
                                  | .ok r => .ok ((name, .pstr f) :: r)
                                else
                                  .error (.parameterValidationError
                                    (name ++ ": '" ++ renderPV v ++ "' is not a regular file"))
                              else
                                if fs.isdir f then
                                  match fileResolve schemas fields check_exist fs rest with
                                  | .error e => .error e
                                  | .ok r => .ok ((name, .pstr f) :: r)
                                else
                                  .error (.parameterValidationError
                                    (name ++ ": '" ++ renderPV v ++ "' is not a directory"))
                            else
                              if dt = .dlistfile then
                                if files.all fs.isfile then
                                  match fileResolve schemas fields check_exist fs rest with
                                  | .error e => .error e
                                  | .ok r => .ok ((name, .plist files) :: r)
                                else
                                  .error (.parameterValidationError
                                    (name ++ ": '" ++ renderPV v ++ "' matches non-files"))
                              else
                                if files.all fs.isdir then
                                  match fileResolve schemas fields check_exist fs rest with
                                  | .error e => .error e
                                  | .ok r => .ok ((name, .plist files) :: r)
                                else
                                  .error (.parameterValidationError
                                    (name ++ ": '" ++ renderPV v ++ "' matches non-directories"))
                  else keep

/-- The pydantic validation of the assembled record: coerce every field in
declaration order, collecting all failures into one aggregated message. -/
def pydanticValidate (inputs : List (String × PValue)) :
    List (String × Dtype) → Except (List String) (List (String × PValue))
  | [] => .ok []
  | (n, dt) :: rest =>
      let v := (alookup inputs n).getD (.pstr "")
      match coerce dt v with
      | .ok w =>
          match pydanticValidate inputs rest with
          | .ok r => .ok ((n, w) :: r)
          | .error es => .error es
      | .error m =>
          match pydanticValidate inputs rest with
          | .ok _ => .error ["'" ++ n ++ "': " ++ m]
          | .error es => .error (("'" ++ n ++ "': " ++ m) :: es)

/-- The choices check over the validated values: the first value outside its
schema's non-empty choices list fails. -/
def choicesCheck (schemas : List (String × PSchema)) :
    List (String × PValue) → Option String
  | [] => none
  | (n, v) :: rest =>
      match alookup schemas n with
      | none => choicesCheck schemas rest
      | some sch =>
          if sch.choices ≠ [] ∧ ¬choiceMember v sch.choices then
            some (n ++ ": invalid value '" ++ renderPV v ++ "'")
          else choicesCheck schemas rest

/-- `validate_parameters(params, schemas, subst, defaults, check_unknowns,
check_required, check_exist)` over the modelled filesystem: the unknown-key
check, the split into concrete and `Unresolved` inputs, defaulting, the
substitution step (or the deferral of brace-bearing strings), the required
check, dynamic dtype resolution, file/glob resolution, pydantic coercion,
the choices check, and finally the merge-back of unresolved values. -/
def validateParameters (params : List (String × PValue))
    (schemas : List (String × PSchema))
    (subst : Option (List (String × CVal)))
    (defaults : List (String × PValue))
    (check_unknowns check_required check_exist : Bool) (fs : FS) :
    Except VErr (List (String × PValue)) :=
  match (if check_unknowns then firstUnknown params schemas else none) with
  | some n => .error (.parameterValidationError ("unknown parameter '" ++ n ++ "'"))
  | none =>
      let inputs0 := params.filter (fun p => !isUnres p.2)
      let unresolved0 := params.filter (fun p => isUnres p.2)
      let inputs1 := addDefaults defaults schemas inputs0
      let step2 : Except VErr (List (String × PValue) × List (String × PValue)) :=
        match subst with
        | some sctx =>
            match vSubstLoop sctx 10 inputs1 (inputs1.map (fun p => (p.1, toCVal p.2))) with
            | none => .error (.parameterValidationError vSubstLoopErrorMsg)
            | some inputs2 => .ok (inputs2, unresolved0)
        | none =>
            let (ins, moved) := moveUnresolved inputs1
            .ok (ins, aupdate unresolved0 moved)
      match step2 with
      | .error e => .error e
      | .ok (inputs2, unresolved) =>
          let missing := requiredMissing schemas inputs2 unresolved
          if check_required ∧ missing ≠ [] then
            .error (.parameterValidationError
              ("missing required parameters: " ++ joinQuote missing))
          else
            match buildFields inputs2 schemas with
            | .error e => .error e
            | .ok fields =>
                match fileResolve schemas fields check_exist fs inputs2 with
                | .error e => .error e
                | .ok inputs3 =>
                    match pydanticValidate inputs3 fields with
                    | .error es =>
                        .error (.parameterValidationError (String.intercalate ", " es))
                    | .ok validated =>
                        match choicesCheck schemas validated with
                        | some msg => .error (.parameterValidationError msg)
                        | none => .ok (aupdate validated unresolved)

/-! ## Auxiliary definitions used by the statements below -/

/-- Lookup returning the entry's `_child_props_` record together with its
value. -/
def Entries.findFull : Entries → String → Option (Props × Value)
  | .nil, _ => none
  | .cons n p v rest, key =>
      if n = key then some (p, v) else rest.findFull key

def NS.findFull (n : NS) (key : String) : Option (Props × Value) :=
  n.entries.findFull key

/-- Key sets are duplicate-free at every level of the tree (always true of
namespaces built through `_add_`, since `OrderedDict` keys are unique). -/
def entriesNodupTree : Entries → Bool
  | .nil => true
  | .cons n _ v rest =>
      !(rest.names.contains n) &&
      (match v with
       | .vns (.mk _ esc) => entriesNodupTree esc
       | _ => true) &&
      entriesNodupTree rest

def NS.nodupTree (n : NS) : Bool := entriesNodupTree n.entries

/-- A character that plays no role in brace handling: not a brace and not one
of the two protection sentinels. -/
def plainChar (c : Char) : Bool :=
  c ≠ lbrace && c ≠ rbrace && c ≠ sentL && c ≠ sentR

/-- Entries that are all plain strings of inert characters (no braces, no
sentinels): such entries are untouched by resolution passes and by brace
finalization. -/
def allPlainEntries : Entries → Bool
  | .nil => true
  | .cons _ _ (.vstr s) rest => s.toList.all plainChar && allPlainEntries rest
  | .cons _ _ _ _ => false

/-- The two-entry cyclic namespace of the cycle-detection property:
`a = "\x7bb\x7d"`, `b = "\x7ba\x7d"`. -/
def cycleNS : NS :=
  NS.of [("a", defaultProps, .vstr "\x7bb\x7d"), ("b", defaultProps, .vstr "\x7ba\x7d")]

/-- A namespace whose single entry is a self-reproducing reference:
`a = "\x7ba\x7d"` formats to itself, so a resolution pass reports zero
updates. -/
def selfRefNS : NS := NS.of [("a", defaultProps, .vstr "\x7ba\x7d")]

/-- An entry containing both an escaped brace sequence and a reference to a
missing name. -/
def escMissingNS : NS :=
  NS.of [("c", defaultProps, .vstr "\x7b\x7blit\x7d\x7d \x7bmissing\x7d")]

/-- A one-entry namespace whose value `A\x7b\x7blit\x7d\x7dB` is an escaped
brace sequence surrounded by inert text, written out as the character list it
is parsed from. -/
def rtNS : NS :=
  NS.of [("a", defaultProps,
    .vstr (String.mk (['A'] ++ lbrace :: lbrace ::
      (['l', 'i', 't'] ++ rbrace :: rbrace :: ['B']))))]

/-- An immutable string leaf next to the value it references. -/
def immutableLeafProps : Props := { mutable := false, forgiving := false }

def immutableLeafNS : NS :=
  NS.of [("x", defaultProps, .vstr "hello"),
         ("s", immutableLeafProps, .vstr "\x7bx\x7d")]

/-- An immutable child namespace containing a template that would resolve if
it were substituted into. -/
def immChildInner : NS := NS.of [("y", defaultProps, .vstr "\x7bx\x7d")]

def immChildNS : NS :=
  NS.of [("x", defaultProps, .vstr "hello"),
         ("c", immutableLeafProps, .vns immChildInner)]

/-- A filesystem with no files at all. -/
def emptyFS : FS := ⟨fun _ => [], fun _ => false, fun _ => false⟩

/-- A plain optional string schema with no default and no choices. -/
def plainStrSchema : PSchema :=
  { dtype := "str", required := false, default := none, choices := [] }

/-- The schema of the C7 counterexample: a defaulted, choice-constrained
string parameter. -/
def choiceSchema : PSchema :=
  { dtype := "str", required := false, default := some (.pstr "c"), choices := ["a", "b"] }

/-- A required scalar `File` schema with no default and no choices. -/
def reqFileSchema : PSchema :=
  { dtype := "File", required := true, default := none, choices := [] }

/-- The properties `_add_` gives a forgiving (and mutable) sub-namespace. -/
def forgivingProps : Props := { mutable := true, forgiving := true }

/-- The driver scenario of the forgiveness property: a strict root with a
template referencing `\x7bnode.missing\x7d` and a forgiving child namespace
`node` with entries `B`. -/
def c5ns (B : Entries) : NS :=
  NS.of [("t", defaultProps, .vstr "\x7bnode.missing\x7d"),
         ("node", forgivingProps, .vns (NS.mk forgivingProps B))]

/-- The same scenario after the driver run: the template has resolved to the
placeholder. -/
def c5ns' (B : Entries) : NS :=
  NS.of [("t", defaultProps, .vstr "(missing)"),
         ("node", forgivingProps, .vns (NS.mk forgivingProps B))]

/-! ## Theorems -/

set_option maxRecDepth 8000

/-- C1, counterexample.  On the two-entry cycle `a = "\x7bb\x7d"`,
`b = "\x7ba\x7d"`, `self_substitute` does not fail with the
cyclic-substitution `SubstitutionError`: it fails with an uncaught
`KeyError('a')` instead, because the resolution loop converges (later entries
are formatted against the already-updated output, so both entries settle to
`"\x7ba\x7d"` after two passes) and the self-referential remnant then blows up
in the brace-finalization pass. -/
theorem C1_counterexample_no_substitution_error :
    selfSubstitute cycleNS none ≠
      .error (.substitutionError substitutionErrorMsg) ∧
    selfSubstitute cycleNS none = .error (.pyExc (.keyError "a")) := by
  constructor
  · intro h
    rw [show selfSubstitute cycleNS none = .error (.pyExc (.keyError "a")) from rfl] at h
    simp at h
  · rfl

/-- C1 (corrected).  On the two-entry cycle the driver still fails, but not
as the claim states: the resolution loop converges after exactly 2 passes
(the first pass rewrites `a` to `"\x7ba\x7d"` because `b` is looked up in the
evolving output, the second pass reports zero updates), and the failure is an
uncaught `KeyError('a')` escaping `_finalize_braces_`, not a
`SubstitutionError` at the 10-iteration cap. -/
theorem C1_cycle_fails_with_keyerror_after_two_passes :
    substRoot cycleNS [] =
      (NS.of [("a", defaultProps, .vstr "\x7ba\x7d"),
              ("b", defaultProps, .vstr "\x7ba\x7d")], 1, 0, []) ∧
    substLoop 10 cycleNS [] =
      some (NS.of [("a", defaultProps, .vstr "\x7ba\x7d"),
                   ("b", defaultProps, .vstr "\x7ba\x7d")], 0, [], 2) ∧
    selfSubstitute cycleNS none = .error (.pyExc (.keyError "a")) :=
  ⟨rfl, rfl, rfl⟩

/-- C2, counterexample.  The entry
`c = "\x7b\x7blit\x7d\x7d \x7bmissing\x7d"` contains the escaped sequence
`\x7b\x7blit\x7d\x7d`, yet after the full driver run its final value is the
stored `KeyError('missing')` exception — not a string containing
`\x7blit\x7d` — because the reference to the missing name made the whole
entry an `Error` value on the first pass. -/
theorem C2_counterexample_error_entry_loses_escape :
    selfSubstitute escMissingNS none =
      .ok (NS.of [("c", defaultProps, .vexc (.keyError "missing"))], 1, []) :=
  rfl

/-- C3, counterexample.  `a = "\x7ba\x7d"` is a fixed point — a resolution
pass reports zero updates — yet `self_substitute` does not return an
unresolved count at all: the brace-finalization pass raises an uncaught
`KeyError('a')` on the surviving replacement field. -/
theorem C3_counterexample_fixed_point_raises :
    substRoot selfRefNS [] = (selfRefNS, 0, 0, []) ∧
    selfSubstitute selfRefNS none = .error (.pyExc (.keyError "a")) :=
  ⟨rfl, rfl⟩

/-- C6, counterexample.  The entry `s`, recorded with `mutable=False`, has a
string value `"\x7bx\x7d"`; a resolution pass substitutes it anyway (to
`"hello"`), because `_substitute_` consults the `mutable` flag only for
child-namespace values, never for string leaves. -/
theorem C6_counterexample_immutable_string_substituted :
    substRoot immutableLeafNS [] =
      (NS.of [("x", defaultProps, .vstr "hello"),
              ("s", immutableLeafProps, .vstr "hello")], 1, 0, []) ∧
    (immutableLeafNS.findFull "s" = some (immutableLeafProps, .vstr "\x7bx\x7d") ∧
     immutableLeafProps.mutable = false) :=
  ⟨rfl, rfl, rfl⟩

/-- C7, counterexample.  The parameter `x` arrives as
`Unresolved("\x7bt\x7d")`, yet `validate_parameters` is not a pass-through
for it: the schema default `"c"` is still filled in under `x` and runs
through the choice check, which rejects it — the call raises instead of
returning the `Unresolved` marker, so the exemption from defaulting and
choice checking claimed for `Unresolved` parameters does not hold. -/
theorem C7_counterexample_default_of_unresolved_checked :
    validateParameters [("x", .punres "\x7bt\x7d")] [("x", choiceSchema)]
        none [] true true true emptyFS
      = .error (.parameterValidationError "x: invalid value 'c'") :=
  rfl

/-- C8, counterexample.  With two unknown parameters `p` and `q`, the raised
message names only `p`, the first offender found — the character `q` does not
occur in the message at all. -/
theorem C8_counterexample_only_first_unknown_named :
    validateParameters [("p", .pstr "1"), ("q", .pstr "2")] [] none []
        true true true emptyFS
      = .error (.parameterValidationError "unknown parameter 'p'") ∧
    ¬ ('q' ∈ "unknown parameter 'p'".toList) :=
  ⟨rfl, by decide⟩

/-- C9, counterexample.  A required scalar-`File` parameter whose glob
matches nothing does **not** make `validate_parameters` fail when the
`check_exist` flag is off: the value is coerced to the empty string and the
call succeeds, so "fails exactly when the schema requires existence" is
wrong — failure also needs `check_exist`. -/
theorem C9_counterexample_required_without_check_exist :
    reqFileSchema.required = true ∧
    validateParameters [("f", .pstr "nomatch*")] [("f", reqFileSchema)]
        none [] true true false emptyFS
      = .ok [("f", .pstr "")] :=
  ⟨rfl, rfl⟩

/-! Association-list lemmas for the validator. -/

theorem alookup_aset_eq {α : Type} :
    ∀ (l : List (String × α)) (k : String) (v : α),
      alookup (aset l k v) k = some v
  | [], k, v => by simp [aset, alookup]
  | (n, x) :: rest, k, v => by
      by_cases hn : n = k
      · subst hn; simp [aset, alookup]
      · simp [aset, alookup, hn, alookup_aset_eq rest k v]

theorem alookup_aset_ne {α : Type} :
    ∀ (l : List (String × α)) (k' k : String) (v : α), k' ≠ k →
      alookup (aset l k' v) k = alookup l k
  | [], k', k, v, h => by simp [aset, alookup, h]
  | (n, x) :: rest, k', k, v, h => by
      by_cases hn : n = k'
      · subst hn; simp [aset, alookup, h]
      · simp [aset, alookup, hn, alookup_aset_ne rest k' k v h]

theorem aupdate_alookup_not_mem {α : Type} :
    ∀ (extra base : List (String × α)) (k : String),
      k ∉ extra.map Prod.fst →
      alookup (aupdate base extra) k = alookup base k
  | [], base, k, _ => by simp [aupdate]
  | (n, x) :: rest, base, k, h => by
      have hn : n ≠ k := fun he => h (by simp [he])
      have hrest : k ∉ rest.map Prod.fst := fun hm => h (by simp [hm])
      show alookup (aupdate (aset base n x) rest) k = alookup base k
      rw [aupdate_alookup_not_mem rest (aset base n x) k hrest,
        alookup_aset_ne base n k x hn]

theorem aupdate_alookup_mem {α : Type} :
    ∀ (extra base : List (String × α)) (k : String) (v : α),
      (extra.map Prod.fst).Nodup →
      alookup extra k = some v →
      alookup (aupdate base extra) k = some v
  | [], _, k, v, _, h => by simp [alookup] at h
  | (n, x) :: rest, base, k, v, hnd, h => by
      rw [show ((n, x) :: rest).map Prod.fst = n :: rest.map Prod.fst from rfl,
        List.nodup_cons] at hnd
      by_cases hn : n = k
      · subst hn
        simp [alookup] at h
        subst h
        show alookup (aupdate (aset base n x) rest) n = some x
        rw [aupdate_alookup_not_mem rest (aset base n x) n hnd.1,
          alookup_aset_eq]
      · simp [alookup, hn] at h
        exact aupdate_alookup_mem rest (aset base n x) k v hnd.2 h

theorem alookup_filter {α : Type} (P : String × α → Bool) :
    ∀ (l : List (String × α)) (k : String) (v : α),
      alookup l k = some v → P (k, v) = true →
      alookup (l.filter P) k = some v
  | [], k, v, h, _ => by simp [alookup] at h
  | (n, x) :: rest, k, v, h, hP => by
      by_cases hn : n = k
      · subst hn
        simp [alookup] at h
        subst h
        simp [List.filter, hP, alookup]
      · simp only [alookup, hn, if_false, if_neg] at h
        cases hPx : P (n, x) <;>
          simp [List.filter_cons, hPx, alookup, hn,
            alookup_filter P rest k v h hP]

theorem alookup_eq_none_iff {α : Type} :
    ∀ (l : List (String × α)) (k : String),
      alookup l k = none ↔ k ∉ l.map Prod.fst
  | [], k => by simp [alookup]
  | (n, x) :: rest, k => by
      by_cases hn : n = k
      · subst hn; simp [alookup]
      · simp [alookup, hn, alookup_eq_none_iff rest k, Ne.symm hn]

theorem alookup_of_mem_nodup {α : Type} :
    ∀ (l : List (String × α)) (k : String) (v : α),
      (l.map Prod.fst).Nodup → (k, v) ∈ l → alookup l k = some v
  | [], _, _, _, h => by simp at h
  | (n, x) :: rest, k, v, hnd, h => by
      rw [show ((n, x) :: rest).map Prod.fst = n :: rest.map Prod.fst from rfl,
        List.nodup_cons] at hnd
      rcases List.mem_cons.mp h with he | hm
      · obtain ⟨h1, h2⟩ := Prod.mk.injEq .. ▸ he
        subst h1; subst h2
        simp [alookup]
      · have hn : n ≠ k := by
          intro he
          subst he
          exact hnd.1 (List.mem_map.mpr ⟨(n, v), hm, rfl⟩)
        simp [alookup, hn, alookup_of_mem_nodup rest k v hnd.2 hm]

theorem moveUnresolved_mem_snd :
    ∀ (l : List (String × PValue)) (k : String) (w : PValue),
      (k, w) ∈ (moveUnresolved l).2 →
      ∃ s, (k, PValue.pstr s) ∈ l ∧ hasLoneBrace s.toList = true ∧
        w = .punres s
  | [], _, _, h => by simp [moveUnresolved] at h
  | (n, v) :: rest, k, w, h => by
      rcases hmv : moveUnresolved rest with ⟨ins, unr⟩
      have ih := fun (k : String) (w : PValue) (hm : (k, w) ∈ unr) =>
        moveUnresolved_mem_snd rest k w (by rw [hmv]; exact hm)
      match v with
      | .pstr s =>
          by_cases hb : hasLoneBrace s.toList
          all_goals simp only [String.toList] at hb
          · simp only [moveUnresolved, hmv, String.toList, hb, if_true, if_pos] at h
            rcases List.mem_cons.mp h with he | hm
            · obtain ⟨h1, h2⟩ := Prod.mk.injEq .. ▸ he
              exact ⟨s, by simp [h1], by simpa using hb, h2⟩
            · obtain ⟨s', hmem, hb', hw⟩ := ih k w hm
              exact ⟨s', by simp [hmem], hb', hw⟩
          · simp only [moveUnresolved, hmv, String.toList, hb, if_false, if_neg,
              Bool.false_eq_true] at h
            obtain ⟨s', hmem, hb', hw⟩ := ih k w h
            exact ⟨s', by simp [hmem], hb', hw⟩
      | .perr s =>
          simp only [moveUnresolved, hmv] at h
          obtain ⟨s', hmem, hb', hw⟩ := ih k w h
          exact ⟨s', by simp [hmem], hb', hw⟩
      | .punres s =>
          simp only [moveUnresolved, hmv] at h
          obtain ⟨s', hmem, hb', hw⟩ := ih k w h
          exact ⟨s', by simp [hmem], hb', hw⟩
      | .plist xs =>
          simp only [moveUnresolved, hmv] at h
          obtain ⟨s', hmem, hb', hw⟩ := ih k w h
          exact ⟨s', by simp [hmem], hb', hw⟩
      | .pint i =>
          simp only [moveUnresolved, hmv] at h
          obtain ⟨s', hmem, hb', hw⟩ := ih k w h
          exact ⟨s', by simp [hmem], hb', hw⟩

theorem mem_aset_keys {α : Type} :
    ∀ (l : List (String × α)) (k : String) (v : α) (a : String),
      a ∈ (aset l k v).map Prod.fst → a ∈ l.map Prod.fst ∨ a = k
  | [], k, v, a, h => by simp [aset] at h; exact Or.inr h
  | (n, x) :: rest, k, v, a, h => by
      by_cases hn : n = k
      · subst hn
        simp [aset] at h
        rcases h with h | h
        · exact Or.inl (by simp [h])
        · exact Or.inl (by simp [h])
      · simp [aset, hn] at h
        rcases h with h | h
        · exact Or.inl (by simp [h])
        · rcases mem_aset_keys rest k v a (by simpa using h) with h' | h'
          · exact Or.inl (by simp [h'])
          · exact Or.inr h'

theorem aset_keys_nodup {α : Type} :
    ∀ (l : List (String × α)) (k : String) (v : α),
      (l.map Prod.fst).Nodup → ((aset l k v).map Prod.fst).Nodup
  | [], k, v, _ => by simp [aset]
  | (n, x) :: rest, k, v, h => by
      rw [show ((n, x) :: rest).map Prod.fst = n :: rest.map Prod.fst from rfl,
        List.nodup_cons] at h
      by_cases hn : n = k
      · subst hn
        simpa [aset, List.nodup_cons] using h
      · simp only [aset, hn, if_false, if_neg]
        rw [show ((n, x) :: aset rest k v).map Prod.fst =
          n :: (aset rest k v).map Prod.fst from rfl, List.nodup_cons]
        refine ⟨?_, aset_keys_nodup rest k v h.2⟩
        intro hmem
        rcases mem_aset_keys rest k v n hmem with h' | h'
        · exact h.1 h'
        · exact hn h'

theorem aupdate_keys_nodup {α : Type} :
    ∀ (extra base : List (String × α)),
      (base.map Prod.fst).Nodup → ((aupdate base extra).map Prod.fst).Nodup
  | [], _, h => h
  | (n, x) :: rest, base, h =>
      aupdate_keys_nodup rest (aset base n x) (aset_keys_nodup base n x h)

theorem addDefaults_keys_nodup :
    ∀ (schemas : List (String × PSchema)) (defaults l : List (String × PValue)),
      (l.map Prod.fst).Nodup → ((addDefaults defaults schemas l).map Prod.fst).Nodup
  | [], _, _, h => h
  | (n, sch) :: rest, defaults, l, h => by
      have happ : ∀ (d : PValue), alookup l n = none →
          ((l ++ [(n, d)]).map Prod.fst).Nodup := by
        intro d hnone
        have hn : n ∉ l.map Prod.fst := (alookup_eq_none_iff l n).mp hnone
        rw [List.map_append, List.nodup_append]
        refine ⟨h, by simp, ?_⟩
        intro a ha hb
        simp only [List.map_cons, List.map_nil, List.mem_singleton] at hb
        subst hb
        exact hn ha
      simp only [addDefaults]
      cases hl : alookup l n with
      | some _ => simp [hl]; exact addDefaults_keys_nodup rest defaults l h
      | none =>
          cases hd : alookup defaults n with
          | some d =>
              simp [hl, hd]
              exact addDefaults_keys_nodup rest defaults _ (happ d hl)
          | none =>
              cases hsd : sch.default with
              | some d =>
                  simp [hl, hd, hsd]
                  exact addDefaults_keys_nodup rest defaults _ (happ d hl)
              | none =>
                  simp [hl, hd, hsd]
                  exact addDefaults_keys_nodup rest defaults l h

/-- C7 (corrected).  A parameter whose input value is an `Unresolved` marker
is merged back untouched whenever `validate_parameters` returns: the result
maps the name to the very same `Unresolved` value.  The hypotheses: parameter
keys are unique (they come from a dict), and the name's defaulted entry (if
any) is not a brace-bearing string — otherwise, with no substitution context,
the deferral step would replace the original marker by `Unresolved(default)`.
The call need not return at all: the counterexample shows the schema default
being filled in under the name and failing the choice check. -/
theorem C7_unresolved_passthrough (params : List (String × PValue))
    (schemas : List (String × PSchema)) (subst : Option (List (String × CVal)))
    (defaults : List (String × PValue)) (cu cr ce : Bool) (fs : FS)
    (name uval : String)
    (hnd : (params.map Prod.fst).Nodup)
    (hp : alookup params name = some (.punres uval))
    (hdef : ∀ s, alookup (addDefaults defaults schemas
              (params.filter (fun p => !isUnres p.2))) name = some (.pstr s) →
            hasLoneBrace s.toList = false) :
    ∀ res, validateParameters params schemas subst defaults cu cr ce fs = .ok res →
      alookup res name = some (.punres uval) := by
  intro res hok
  have hu0 : alookup (params.filter (fun p => isUnres p.2)) name =
      some (.punres uval) :=
    alookup_filter _ params name _ hp rfl
  have hnd0 : ((params.filter (fun p => isUnres p.2)).map Prod.fst).Nodup :=
    List.Nodup.sublist (List.Sublist.map Prod.fst (List.filter_sublist params)) hnd
  have hndI1 : ((addDefaults defaults schemas
      (params.filter (fun p => !isUnres p.2))).map Prod.fst).Nodup :=
    addDefaults_keys_nodup schemas defaults _
      (List.Nodup.sublist (List.Sublist.map Prod.fst (List.filter_sublist params)) hnd)
  rcases subst with _ | sctx
  · simp only [validateParameters] at hok
    split at hok
    · simp at hok
    · split at hok
      · simp at hok
      · split at hok
        · simp at hok
        · split at hok
          · simp at hok
          · split at hok
            · simp at hok
            · split at hok
              · simp at hok
              · rename_i x5 hequk hreq x3 flds hfields x2 r2 hfile x1 validated
                  hpyd x0 hchoice
                simp only [Except.ok.injEq] at hok
                subst hok
                rw [aupdate_alookup_mem _ _ name (.punres uval)]
                · exact aupdate_keys_nodup _ _ hnd0
                · rw [aupdate_alookup_not_mem]
                  · exact hu0
                  · intro hmem
                    obtain ⟨⟨k, w⟩, hw, hkeq⟩ := List.mem_map.mp hmem
                    simp only [] at hkeq
                    subst hkeq
                    obtain ⟨s, hmems, hbr, _⟩ := moveUnresolved_mem_snd _ _ _ hw
                    have hx := hdef s (alookup_of_mem_nodup _ _ _ hndI1 hmems)
                    simp only [String.toList] at hx
                    simp [hx] at hbr
  · simp only [validateParameters] at hok
    split at hok
    · simp at hok
    · split at hok
      · simp at hok
      · split at hok
        · simp at hok
        · split at hok
          · simp at hok
          · split at hok
            · simp at hok
            · split at hok
              · simp at hok
              · split at hok
                · simp at hok
                · rename_i x5 hequk step2 inputs2 unres hstep2 hreq x3 flds
                    hfields x2 r2 hfile x1 validated hpyd x0 hchoice
                  simp only [Except.ok.injEq] at hok
                  subst hok
                  split at hstep2
                  · simp at hstep2
                  · simp only [Except.ok.injEq, Prod.mk.injEq] at hstep2
                    obtain ⟨h1, h2⟩ := hstep2
                    rw [← h2]
                    exact aupdate_alookup_mem _ _ name _ hnd0 hu0

theorem C7_unresolved_passthrough_witness :
    (([("x", PValue.punres "\x7bt\x7d"), ("y", PValue.pstr "hi")].map
        Prod.fst).Nodup ∧
     alookup [("x", PValue.punres "\x7bt\x7d"), ("y", PValue.pstr "hi")] "x" =
       some (.punres "\x7bt\x7d")) ∧
    (validateParameters [("x", PValue.punres "\x7bt\x7d"), ("y", PValue.pstr "hi")]
        [("x", plainStrSchema), ("y", plainStrSchema)] none [] true true true
        emptyFS
      = .ok [("y", PValue.pstr "hi"), ("x", PValue.punres "\x7bt\x7d")] ∧
     alookup [("y", PValue.pstr "hi"), ("x", PValue.punres "\x7bt\x7d")] "x" =
       some (.punres "\x7bt\x7d")) :=
  ⟨⟨by decide, rfl⟩,
   ⟨rfl,
    C7_unresolved_passthrough
      [("x", PValue.punres "\x7bt\x7d"), ("y", PValue.pstr "hi")]
      [("x", plainStrSchema), ("y", plainStrSchema)] none [] true true true
      emptyFS "x" "\x7bt\x7d" (by decide) rfl
      (fun s h => by
        rw [show alookup (addDefaults []
            [("x", plainStrSchema), ("y", plainStrSchema)]
            ([("x", PValue.punres "\x7bt\x7d"), ("y", PValue.pstr "hi")].filter
              (fun p => !isUnres p.2))) "x" = none from rfl] at h
        exact Option.noConfusion h)
      [("y", PValue.pstr "hi"), ("x", PValue.punres "\x7bt\x7d")] rfl⟩⟩

/-- C8 (corrected).  When `check_unknowns` is set and some key of `params` is
absent from `schemas`, `validate_parameters` raises a parameter validation
error naming only the first such key (in `params` iteration order), not every
offender. -/
theorem C8_first_unknown_error (params : List (String × PValue))
    (schemas : List (String × PSchema)) (subst : Option (List (String × CVal)))
    (defaults : List (String × PValue)) (cr ce : Bool) (fs : FS) (n : String)
    (h : firstUnknown params schemas = some n) :
    validateParameters params schemas subst defaults true cr ce fs =
      .error (.parameterValidationError ("unknown parameter '" ++ n ++ "'")) := by
  simp [validateParameters, h]

theorem C8_first_unknown_error_witness :
    firstUnknown [("p", PValue.pstr "1"), ("q", PValue.pstr "2")] [] = some "p" ∧
    validateParameters [("p", PValue.pstr "1"), ("q", PValue.pstr "2")] []
        none [] true true true emptyFS =
      .error (.parameterValidationError ("unknown parameter '" ++ "p" ++ "'")) :=
  ⟨rfl, C8_first_unknown_error _ _ none [] true true emptyFS "p" rfl⟩

/-- C9 (corrected).  For a file-typed (or list-of-file-typed) parameter whose
value matches no files, `validate_parameters` fails exactly when the schema
is required **and** the `check_exist` flag is enabled; otherwise the value is
coerced to an empty list (list types) or empty string (scalar types) and the
remaining file checks are skipped, so the call succeeds. -/
theorem C9_empty_match_behaviour (name pat : String) (sch : PSchema)
    (dt : Dtype) (cu cr ce : Bool) (fs : FS)
    (hdt : parseDtype sch.dtype = some dt)
    (hfile : isFileD dt ∨ isFileListD dt)
    (hglob : fs.glob pat = [])
    (hchoices : sch.choices = [])
    (hbrace : hasLoneBrace pat.toList = false) :
    validateParameters [(name, .pstr pat)] [(name, sch)] none [] cu cr ce fs =
      (if sch.required ∧ ce then
        .error (.parameterValidationError (name ++ ": nothing matches '" ++ pat ++ "'"))
      else .ok [(name, if isFileListD dt then .plist [] else .pstr "")]) := by
  simp only [String.toList] at hbrace
  cases dt
  case dstr => simp [isFileD, isFileListD] at hfile
  case dint => simp [isFileD, isFileListD] at hfile
  all_goals
    by_cases hr : sch.required ∧ ce <;>
      simp [validateParameters, firstUnknown, alookup, isUnres, addDefaults,
        moveUnresolved, hbrace, aupdate, requiredMissing, buildFields, hdt,
        fileResolve, isFileD, isFileListD, hglob, renderPV, pydanticValidate,
        coerce, choicesCheck, hchoices, hr, joinQuote]

/-! Helper lemmas about inert (plain) characters and entries. -/

theorem lbrace_def : lbrace = '\x7b' := rfl

theorem rbrace_def : rbrace = '\x7d' := rfl

theorem sentL_def : sentL = '\xab' := rfl

theorem sentR_def : sentR = '\xbb' := rfl

theorem all_plain_no_lbrace {s : List Char} (h : s.all plainChar = true) :
    lbrace ∉ s := by
  intro hmem
  have := List.all_eq_true.mp h lbrace hmem
  simp [plainChar] at this

theorem all_plain_no_rbrace {s : List Char} (h : s.all plainChar = true) :
    rbrace ∉ s := by
  intro hmem
  have := List.all_eq_true.mp h rbrace hmem
  simp [plainChar] at this

/-- Formatting a brace-free character list is the identity, for any lookup
namespace, with no forgiven records. -/
theorem fmt_no_braces (ctx : NS) :
    ∀ (cs : List Char) (log : Log), (∀ c ∈ cs, c ≠ lbrace ∧ c ≠ rbrace) →
      pyFormatAux ctx cs .lit log = (.ok cs, log)
  | [], _, _ => rfl
  | c :: cs, log, h => by
      have hc := h c (by simp)
      have ih := fmt_no_braces ctx cs log (fun c hc => h c (by simp [hc]))
      simp [pyFormatAux, hc.1, hc.2, ih]

/-- A resolution pass over all-plain entries does nothing: no updates, no
unresolved, no forgiven records, output untouched. -/
theorem plain_substEntries :
    ∀ (es : Entries) (out : NS) (subst : Option NS) (log : Log),
      allPlainEntries es = true →
      substEntries es out subst log = (out, 0, 0, log)
  | .nil, _, _, _, _ => rfl
  | .cons _ _ (.vstr s) rest, out, subst, log, h => by
      simp only [allPlainEntries, Bool.and_eq_true] at h
      have hmem : lbrace ∉ s.toList := all_plain_no_lbrace h.1
      simp only [String.toList] at hmem
      simp [substEntries, hmem, plain_substEntries rest out subst log h.2]
  | .cons _ _ (.verr _) _, _, _, _, h => by simp [allPlainEntries] at h
  | .cons _ _ (.vexc _) _, _, _, _, h => by simp [allPlainEntries] at h
  | .cons _ _ (.vint _) _, _, _, _, h => by simp [allPlainEntries] at h
  | .cons _ _ (.vns _) _, _, _, _, h => by simp [allPlainEntries] at h

/-- Brace finalization over all-plain entries does nothing. -/
theorem plain_finalizeEntries :
    ∀ (es : Entries) (out : NS) (acc : Bool), allPlainEntries es = true →
      finalizeEntries es out acc = .ok (out, acc)
  | .nil, _, _, _ => rfl
  | .cons _ _ (.vstr s) rest, out, acc, h => by
      simp only [allPlainEntries, Bool.and_eq_true] at h
      have hfmt := fmt_no_braces emptyNS s.toList []
        (fun c hc => ⟨fun he => by
            have := List.all_eq_true.mp h.1 c hc
            simp [plainChar, he] at this,
          fun he => by
            have := List.all_eq_true.mp h.1 c hc
            simp [plainChar, he] at this⟩)
      simp only [String.toList] at hfmt
      simp [finalizeEntries, hfmt, show String.mk s.data = s from rfl,
        plain_finalizeEntries rest out acc h.2]
  | .cons _ _ (.verr _) _, _, _, h => by simp [allPlainEntries] at h
  | .cons _ _ (.vexc _) _, _, _, h => by simp [allPlainEntries] at h
  | .cons _ _ (.vint _) _, _, _, h => by simp [allPlainEntries] at h
  | .cons _ _ (.vns _) _, _, _, h => by simp [allPlainEntries] at h

/-- All-plain entries contain no namespace children, so forgiven-collection
finds nothing below them. -/
theorem plain_collectChildren (log : Log) :
    ∀ (es : Entries) (path : List String) (pname : Option String),
      allPlainEntries es = true → collectChildren log es path pname = []
  | .nil, _, _, _ => rfl
  | .cons _ _ (.vstr _) rest, path, pname, h => by
      simp only [allPlainEntries, Bool.and_eq_true] at h
      simp [collectChildren, plain_collectChildren log rest path pname h.2]
  | .cons _ _ (.verr _) _, _, _, h => by simp [allPlainEntries] at h
  | .cons _ _ (.vexc _) _, _, _, h => by simp [allPlainEntries] at h
  | .cons _ _ (.vint _) _, _, _, h => by simp [allPlainEntries] at h
  | .cons _ _ (.vns _) _, _, _, h => by simp [allPlainEntries] at h

/-! Lemmas about entry lookup and update. -/

theorem Entries.find_set_ne :
    ∀ (es : Entries) (k' k : String) (v : Value), k' ≠ k →
      (es.set k' v).find k = es.find k
  | .nil, k', k, v, h => by
      simp [Entries.set, Entries.find, h]
  | .cons n p w rest, k', k, v, h => by
      by_cases hn : n = k'
      · subst hn
        simp [Entries.set, Entries.find, h]
      · simp [Entries.set, Entries.find, hn,
          Entries.find_set_ne rest k' k v h]

theorem NS.find_after_set_ne (n : NS) (k' k : String) (v : Value) (h : k' ≠ k) :
    (n.set k' v).find k = n.find k := by
  cases n
  simp [NS.set, NS.find, NS.entries, Entries.find_set_ne _ _ _ _ h]

theorem Entries.find_set_eq :
    ∀ (es : Entries) (k : String) (v : Value), (es.set k v).find k = some v
  | .nil, k, v => by simp [Entries.set, Entries.find]
  | .cons n p w rest, k, v => by
      by_cases hn : n = k
      · subst hn
        simp [Entries.set, Entries.find]
      · simp [Entries.set, Entries.find, hn, Entries.find_set_eq rest k v]

theorem NS.find_after_set_eq (n : NS) (k : String) (v : Value) :
    (n.set k v).find k = some v := by
  cases n
  simp [NS.set, NS.find, NS.entries, Entries.find_set_eq]

/-- A pass never writes at a key that names none of its entries: the output's
value at such a key is the accumulator's. -/
theorem substEntries_find_absent :
    ∀ (es : Entries) (out : NS) (subst : Option NS) (log : Log) (k : String),
      k ∉ es.names →
      (substEntries es out subst log).1.find k = out.find k
  | .nil, _, _, _, _, _ => rfl
  | .cons name props v rest, out, subst, log, k, hk => by
      have hkname : name ≠ k := by
        intro h; exact hk (by simp [Entries.names, h])
      have hkrest : k ∉ rest.names := by
        intro h; exact hk (by simp [Entries.names, h])
      have ih := fun (o : NS) (l : Log) =>
        substEntries_find_absent rest o subst l k hkrest
      match v with
      | .vstr s =>
          by_cases hb : lbrace ∈ s.toList
          all_goals simp only [String.toList] at hb
          · rcases hsub : substituteString (subst.getD out) s log with ⟨res, log'⟩
            match res with
            | .ok new =>
                by_cases hnew : new = s
                · simp [substEntries, hb, hsub, hnew, ih]
                · rcases hrec : substEntries rest (out.set name (.vstr new)) subst log'
                    with ⟨o, u, r, l⟩
                  have h2 := ih (out.set name (.vstr new)) log'
                  rw [hrec] at h2
                  simp only [] at h2
                  simp [substEntries, hb, hsub, hnew, hrec]
                  rw [h2, NS.find_after_set_ne _ _ _ _ hkname]
            | .error e =>
                rcases hrec : substEntries rest (out.set name (.vexc e)) subst log'
                  with ⟨o, u, r, l⟩
                have h2 := ih (out.set name (.vexc e)) log'
                rw [hrec] at h2
                simp only [] at h2
                simp [substEntries, hb, hsub, hrec]
                rw [h2, NS.find_after_set_ne _ _ _ _ hkname]
          · simp [substEntries, hb, ih]
      | .vns c =>
          match c with
          | .mk pc esc =>
            by_cases hm : props.mutable
            · rcases hrec1 : substEntries esc (.mk pc esc) (some (subst.getD out)) log
                with ⟨c', u1, r1, log'⟩
              by_cases hu1 : u1 = 0
              · subst hu1
                rcases hrec : substEntries rest out subst log' with ⟨o, u, r, l⟩
                have h2 := ih out log'
                rw [hrec] at h2
                simp only [] at h2
                simp [substEntries, hm, hrec1, hrec, h2]
              · rcases hrec : substEntries rest (out.set name (.vns c')) subst log'
                  with ⟨o, u, r, l⟩
                have h2 := ih (out.set name (.vns c')) log'
                rw [hrec] at h2
                simp only [] at h2
                simp [substEntries, hm, hrec1, hrec, hu1]
                rw [h2, NS.find_after_set_ne _ _ _ _ hkname]
            · simp [substEntries, hm, ih]
      | .vexc e =>
          rcases hrec : substEntries rest out subst log with ⟨o, u, r, l⟩
          have := ih out log
          rw [hrec] at this
          simp [substEntries, hrec, this]
      | .verr s => simp [substEntries, ih]
      | .vint i => simp [substEntries, ih]

/-- A pass that reports zero updates never wrote anything: its output is the
accumulator itself (the source then returns `self` un-copied). -/
theorem substEntries_zero_updates :
    ∀ (es : Entries) (out : NS) (subst : Option NS) (log : Log),
      (substEntries es out subst log).2.1 = 0 →
      (substEntries es out subst log).1 = out
  | .nil, _, _, _, _ => rfl
  | .cons name props v rest, out, subst, log, h => by
      match v with
      | .vstr s =>
          by_cases hb : lbrace ∈ s.toList
          all_goals simp only [String.toList] at hb
          · rcases hsub : substituteString (subst.getD out) s log with ⟨res, log'⟩
            match res with
            | .ok new =>
                by_cases hnew : new = s
                · simp only [substEntries, String.toList, hb, if_true, hsub, hnew, if_pos] at h ⊢
                  exact substEntries_zero_updates rest out subst log' h
                · rcases hrec : substEntries rest (out.set name (.vstr new)) subst log'
                    with ⟨o, u, r, l⟩
                  simp [substEntries, hb, hsub, hnew, hrec] at h
            | .error e =>
                rcases hrec : substEntries rest (out.set name (.vexc e)) subst log'
                  with ⟨o, u, r, l⟩
                simp [substEntries, hb, hsub, hrec] at h
          · simp only [substEntries, String.toList, hb, if_false] at h ⊢
            exact substEntries_zero_updates rest out subst log h
      | .vns c =>
          match c with
          | .mk pc esc =>
            by_cases hm : props.mutable
            · rcases hrec1 : substEntries esc (.mk pc esc) (some (subst.getD out)) log
                with ⟨c', u1, r1, log'⟩
              by_cases hu1 : u1 = 0
              · subst hu1
                rcases hrec : substEntries rest out subst log' with ⟨o, u, r, l⟩
                simp [substEntries, hm, hrec1, hrec] at h ⊢
                have := substEntries_zero_updates rest out subst log'
                rw [hrec] at this
                exact this (by simpa using h)
              · rcases hrec : substEntries rest (out.set name (.vns c')) subst log'
                  with ⟨o, u, r, l⟩
                simp [substEntries, hm, hrec1, hrec, hu1] at h
            · simp only [substEntries, hm, Bool.false_eq_true, if_false] at h ⊢
              exact substEntries_zero_updates rest out subst log h
      | .vexc e =>
          rcases hrec : substEntries rest out subst log with ⟨o, u, r, l⟩
          simp only [substEntries, hrec] at h ⊢
          have := substEntries_zero_updates rest out subst log
          rw [hrec] at this
          exact this (by simpa using h)
      | .verr s =>
          simp only [substEntries] at h ⊢
          exact substEntries_zero_updates rest out subst log h
      | .vint i =>
          simp only [substEntries] at h ⊢
          exact substEntries_zero_updates rest out subst log h

/-- Destructuring a duplicate-free entry list. -/
theorem nodupTree_cons_tail (n : String) (p : Props) (v : Value) (rest : Entries)
    (h : entriesNodupTree (.cons n p v rest) = true) :
    n ∉ rest.names ∧ entriesNodupTree rest = true := by
  match v with
  | .vstr s =>
      simp only [entriesNodupTree, Bool.and_eq_true, Bool.not_eq_true'] at h
      exact ⟨by simpa using h.1.1, h.2⟩
  | .verr s =>
      simp only [entriesNodupTree, Bool.and_eq_true, Bool.not_eq_true'] at h
      exact ⟨by simpa using h.1.1, h.2⟩
  | .vexc e =>
      simp only [entriesNodupTree, Bool.and_eq_true, Bool.not_eq_true'] at h
      exact ⟨by simpa using h.1.1, h.2⟩
  | .vint i =>
      simp only [entriesNodupTree, Bool.and_eq_true, Bool.not_eq_true'] at h
      exact ⟨by simpa using h.1.1, h.2⟩
  | .vns c =>
      match c with
      | .mk pc esc =>
          simp only [entriesNodupTree, Bool.and_eq_true, Bool.not_eq_true'] at h
          exact ⟨by simpa using h.1.1, h.2⟩

theorem nodupTree_cons_child (n : String) (p : Props) (pc : Props) (esc : Entries)
    (rest : Entries)
    (h : entriesNodupTree (.cons n p (.vns (.mk pc esc)) rest) = true) :
    entriesNodupTree esc = true := by
  simp only [entriesNodupTree, Bool.and_eq_true, Bool.not_eq_true'] at h
  exact h.1.2

/-- A pass that reports at least one update strictly changed some entry: the
output differs from the snapshot at some key (string rewrites are strict by
construction, stored exceptions replace strings, and updated children differ
by induction). -/
theorem substEntries_update_changes :
    ∀ (es : Entries) (out : NS) (subst : Option NS) (log : Log),
      entriesNodupTree es = true →
      (substEntries es out subst log).2.1 ≠ 0 →
      ∃ k, k ∈ es.names ∧ es.find k ≠ (substEntries es out subst log).1.find k
  | .nil, out, subst, log, _, h => by simp [substEntries] at h
  | .cons name props v rest, out, subst, log, hnd, h => by
      obtain ⟨hnm, hrest⟩ := nodupTree_cons_tail name props v rest hnd
      match v with
      | .vstr s =>
          by_cases hb : lbrace ∈ s.toList
          all_goals simp only [String.toList] at hb
          · rcases hsub : substituteString (subst.getD out) s log with ⟨res, log'⟩
            match res with
            | .ok new =>
                by_cases hnew : new = s
                · simp only [substEntries, String.toList, hb, if_true, hsub, hnew,
                    if_pos] at h ⊢
                  obtain ⟨k, hk, hne⟩ :=
                    substEntries_update_changes rest out subst log' hrest h
                  have hkname : name ≠ k := fun he => hnm (he ▸ hk)
                  exact ⟨k, by simp [Entries.names, hk],
                    by simpa [Entries.find, hkname] using hne⟩
                · rcases hrec : substEntries rest (out.set name (.vstr new)) subst log'
                    with ⟨o, u, r, l⟩
                  have habs := substEntries_find_absent rest
                    (out.set name (.vstr new)) subst log' name hnm
                  rw [hrec] at habs
                  simp only [] at habs
                  refine ⟨name, by simp [Entries.names], ?_⟩
                  simp [substEntries, hb, hsub, hnew, hrec, Entries.find, habs,
                    NS.find_after_set_eq]
                  intro he
                  exact hnew (by simp [he])
            | .error e =>
                rcases hrec : substEntries rest (out.set name (.vexc e)) subst log'
                  with ⟨o, u, r, l⟩
                have habs := substEntries_find_absent rest
                  (out.set name (.vexc e)) subst log' name hnm
                rw [hrec] at habs
                simp only [] at habs
                refine ⟨name, by simp [Entries.names], ?_⟩
                simp [substEntries, hb, hsub, hrec, Entries.find, habs, NS.find_after_set_eq]
          · simp only [substEntries, String.toList, hb, if_false] at h ⊢
            obtain ⟨k, hk, hne⟩ :=
              substEntries_update_changes rest out subst log hrest h
            have hkname : name ≠ k := fun he => hnm (he ▸ hk)
            exact ⟨k, by simp [Entries.names, hk],
              by simpa [Entries.find, hkname] using hne⟩
      | .vns c =>
          match c with
          | .mk pc esc =>
            by_cases hm : props.mutable
            · rcases hrec1 : substEntries esc (.mk pc esc) (some (subst.getD out)) log
                with ⟨c', u1, r1, log'⟩
              by_cases hu1 : u1 = 0
              · subst hu1
                rcases hrec : substEntries rest out subst log' with ⟨o, u, r, l⟩
                simp only [substEntries, hm, if_true, hrec1, hrec] at h ⊢
                have hu : u ≠ 0 := by simpa using h
                obtain ⟨k, hk, hne⟩ :=
                  substEntries_update_changes rest out subst log' hrest
                    (by rw [hrec]; simpa using hu)
                rw [hrec] at hne
                have hkname : name ≠ k := fun he => hnm (he ▸ hk)
                exact ⟨k, by simp [Entries.names, hk],
                  by simpa [Entries.find, hkname] using hne⟩
              · have hcv := nodupTree_cons_child name props pc esc rest hnd
                obtain ⟨kc, hkc, hnec⟩ :=
                  substEntries_update_changes esc (.mk pc esc)
                    (some (subst.getD out)) log hcv (by rw [hrec1]; simpa using hu1)
                rw [hrec1] at hnec
                simp only [] at hnec
                have hcc : NS.mk pc esc ≠ c' := by
                  intro he
                  exact hnec (by rw [← he]; rfl)
                rcases hrec : substEntries rest (out.set name (.vns c')) subst log'
                  with ⟨o, u, r, l⟩
                have habs := substEntries_find_absent rest
                  (out.set name (.vns c')) subst log' name hnm
                rw [hrec] at habs
                simp only [] at habs
                refine ⟨name, by simp [Entries.names], ?_⟩
                simp [substEntries, hm, hrec1, hrec, hu1, Entries.find, habs,
                  NS.find_after_set_eq]
                intro he
                exact hcc (by simp [he])
            · simp only [substEntries, hm, Bool.false_eq_true, if_false] at h ⊢
              obtain ⟨k, hk, hne⟩ :=
                substEntries_update_changes rest out subst log hrest h
              have hkname : name ≠ k := fun he => hnm (he ▸ hk)
              exact ⟨k, by simp [Entries.names, hk],
                by simpa [Entries.find, hkname] using hne⟩
      | .vexc e =>
          rcases hrec : substEntries rest out subst log with ⟨o, u, r, l⟩
          simp only [substEntries, hrec] at h ⊢
          have hu : u ≠ 0 := by simpa using h
          obtain ⟨k, hk, hne⟩ :=
            substEntries_update_changes rest out subst log hrest
              (by rw [hrec]; simpa using hu)
          rw [hrec] at hne
          have hkname : name ≠ k := fun he => hnm (he ▸ hk)
          exact ⟨k, by simp [Entries.names, hk],
            by simpa [Entries.find, hkname] using hne⟩
      | .verr s =>
          simp only [substEntries] at h ⊢
          obtain ⟨k, hk, hne⟩ :=
            substEntries_update_changes rest out subst log hrest h
          have hkname : name ≠ k := fun he => hnm (he ▸ hk)
          exact ⟨k, by simp [Entries.names, hk],
            by simpa [Entries.find, hkname] using hne⟩
      | .vint i =>
          simp only [substEntries] at h ⊢
          obtain ⟨k, hk, hne⟩ :=
            substEntries_update_changes rest out subst log hrest h
          have hkname : name ≠ k := fun he => hnm (he ▸ hk)
          exact ⟨k, by simp [Entries.names, hk],
            by simpa [Entries.find, hkname] using hne⟩

theorem Entries.find_of_findFull :
    ∀ (es : Entries) (k : String) (p : Props) (v : Value),
      es.findFull k = some (p, v) → es.find k = some v
  | .nil, _, _, _, h => by simp [Entries.findFull] at h
  | .cons n pr w rest, k, p, v, h => by
      by_cases hn : n = k
      · simp [Entries.findFull, hn] at h
        simp [Entries.find, hn, h.2]
      · simp only [Entries.findFull, hn, if_false, if_neg] at h
        simp only [Entries.find, hn, if_false, if_neg]
        exact Entries.find_of_findFull rest k p v h

/-- An entry recorded as an immutable namespace is never written during a
pass: the output keeps the value the accumulator had for it. -/
theorem substEntries_immutable_find :
    ∀ (es : Entries) (out : NS) (subst : Option NS) (log : Log)
      (name : String) (props : Props) (c : NS),
      es.findFull name = some (props, .vns c) → props.mutable = false →
      es.names.Nodup → out.find name = some (.vns c) →
      (substEntries es out subst log).1.find name = some (.vns c)
  | .nil, _, _, _, _, _, _, hf, _, _, _ => by simp [Entries.findFull] at hf
  | .cons n' p' v' rest, out, subst, log, name, props, c, hf, hm, hnd, hout => by
      have hnd' := hnd
      rw [show (Entries.cons n' p' v' rest).names = n' :: rest.names from rfl,
        List.nodup_cons] at hnd'
      by_cases hn : n' = name
      · subst hn
        simp [Entries.findFull] at hf
        obtain ⟨hp, hv⟩ := hf
        subst hp
        subst hv
        match c with
        | .mk pc esc =>
            simp only [substEntries, hm, Bool.false_eq_true, if_false]
            rw [substEntries_find_absent rest out subst log n' hnd'.1]
            exact hout
      · have hf' : rest.findFull name = some (props, .vns c) := by
          simpa [Entries.findFull, hn] using hf
        have ih := fun (o : NS) (l : Log) (ho : o.find name = some (.vns c)) =>
          substEntries_immutable_find rest o subst l name props c hf' hm hnd'.2 ho
        match v' with
        | .vstr s =>
            by_cases hb : lbrace ∈ s.toList
            all_goals simp only [String.toList] at hb
            · rcases hsub : substituteString (subst.getD out) s log with ⟨res, log'⟩
              match res with
              | .ok new =>
                  by_cases hnew : new = s
                  · simp only [substEntries, String.toList, hb, if_true, hsub, hnew,
                      if_pos]
                    exact ih out log' hout
                  · simp [substEntries, hb, hsub, hnew]
                    exact ih (out.set n' (.vstr new)) log'
                      (by rw [NS.find_after_set_ne _ _ _ _ hn]; exact hout)
              | .error e =>
                  simp [substEntries, hb, hsub]
                  exact ih (out.set n' (.vexc e)) log'
                    (by rw [NS.find_after_set_ne _ _ _ _ hn]; exact hout)
            · simp only [substEntries, String.toList, hb, if_false]
              exact ih out log hout
        | .vns cc =>
            match cc with
            | .mk pc esc =>
              by_cases hmm : p'.mutable
              · rcases hrec1 : substEntries esc (.mk pc esc) (some (subst.getD out)) log
                  with ⟨c', u1, r1, log'⟩
                by_cases hu1 : u1 = 0
                · subst hu1
                  simp [substEntries, hmm, hrec1]
                  exact ih out log' hout
                · simp [substEntries, hmm, hrec1, hu1]
                  exact ih (out.set n' (.vns c')) log'
                    (by rw [NS.find_after_set_ne _ _ _ _ hn]; exact hout)
              · simp only [substEntries, hmm, Bool.false_eq_true, if_false]
                exact ih out log hout
        | .vexc e =>
            rcases hrec : substEntries rest out subst log with ⟨o, u, r, l⟩
            have := ih out log hout
            rw [hrec] at this
            simp [substEntries, hrec]
            simpa using this
        | .verr s =>
            simp only [substEntries]
            exact ih out log hout
        | .vint i =>
            simp only [substEntries]
            exact ih out log hout

/-- `substituteString` on the template `\x7bnode.missing\x7d`, against any
context whose entry `node` is a forgiving namespace without a `missing`
entry: the placeholder comes back and the forgiven lookup is recorded at the
node's path. -/
theorem substituteString_node_missing (ctx node : NS) (log : Log)
    (h1 : ctx.find "node" = some (.vns node))
    (h2 : node.find "missing" = none)
    (h3 : node.props.forgiving = true) :
    substituteString ctx "\x7bnode.missing\x7d" log =
      (.ok "(missing)", log ++ [(["node"], "missing")]) := by
  simp [substituteString, protectBraces, pyFormatAux, resolveField,
    fieldUnsupported, splitDots, splitDotsAux, fieldPositional, lookupField,
    h1, lookupAttrs, getattrNS, h2, h3, renderValue, restoreBraces,
    lbrace_def, rbrace_def, sentL_def, sentR_def]

/-- C5 (confirmed).  First conjunct, the lookup itself: on a node without the
requested entry, `__getattr__` returns the literal placeholder `(name)` and
records the name against the node when the node is forgiving, and raises
`AttributeError(name)` when it is not.  Second conjunct, the driver: for a
strict root holding a template `\x7bnode.missing\x7d` and a forgiving child
`node` (with any all-plain entries and no entry `missing`), the full driver
run resolves the template to the literal `(missing)` and returns the
forgiven list `["node.missing"]` — the dotted path appears exactly once. -/
theorem C5_forgiving_lookup_and_driver :
    (∀ (n : NS) (name : String) (path : List String) (log : Log),
       n.find name = none →
       (n.props.forgiving = true →
          getattrNS n name path log =
            (.ok (.vstr ("(" ++ name ++ ")")), log ++ [(path, name)])) ∧
       (n.props.forgiving = false →
          getattrNS n name path log = (.error (.attributeError name), log))) ∧
    (∀ (B : Entries), allPlainEntries B = true → B.find "missing" = none →
       selfSubstitute (c5ns B) none = .ok (c5ns' B, 0, ["node.missing"])) := by
  constructor
  · intro n name path log h
    constructor
    · intro hf; simp [getattrNS, h, hf]
    · intro hf; simp [getattrNS, h, hf]
  · intro B hB hmiss
    have hplain := fun (out : NS) (subst : Option NS) (log : Log) =>
      plain_substEntries B out subst log hB
    have h1 : (c5ns B).find "node" = some (.vns (NS.mk forgivingProps B)) := by
      simp [c5ns, NS.of, Entries.ofList, NS.find, Entries.find]
    have hss := substituteString_node_missing (c5ns B) (NS.mk forgivingProps B) []
      h1 (by simpa [NS.find] using hmiss) rfl
    simp only [c5ns, NS.of, Entries.ofList] at hss
    have hpass1 : substRoot (c5ns B) [] = (c5ns' B, 1, 0, [(["node"], "missing")]) := by
      simp [substRoot, c5ns, c5ns', NS.of, Entries.ofList, substEntries, hss,
        NS.set, Entries.set, NS.props, NS.entries, lbrace_def, hplain]
    have hpass2 : substRoot (c5ns' B) [(["node"], "missing")] =
        (c5ns' B, 0, 0, [(["node"], "missing")]) := by
      simp [substRoot, c5ns', NS.of, Entries.ofList, substEntries,
        lbrace_def, hplain]
    have hfin : finalizeNode (c5ns' B) = .ok (c5ns' B, false) := by
      simp [finalizeNode, c5ns', NS.of, Entries.ofList, finalizeEntries,
        pyFormatAux, resolveField, lbrace_def, rbrace_def,
        plain_finalizeEntries B _ _ hB]
    have hcoll : collectNode [(["node"], "missing")] [] none (c5ns' B) =
        ["node.missing"] := by
      simp [collectNode, c5ns', NS.of, Entries.ofList, collectChildren,
        collectOwn, dedupFirst, plain_collectChildren _ B _ _ hB]
    simp [selfSubstitute, substLoop, hpass1, hpass2, hfin, hcoll]

theorem C5_forgiving_lookup_and_driver_witness :
    ((NS.mk forgivingProps (Entries.ofList [("a", defaultProps, .vstr "1")])).find
        "missing" = none ∧
     getattrNS (NS.mk forgivingProps (Entries.ofList [("a", defaultProps, .vstr "1")]))
        "missing" ["node"] [] =
       (.ok (.vstr ("(" ++ "missing" ++ ")")), [] ++ [(["node"], "missing")]) ∧
     getattrNS (NS.mk defaultProps (Entries.ofList [("a", defaultProps, .vstr "1")]))
        "missing" ["node"] [] =
       (.error (.attributeError "missing"), [])) ∧
    (allPlainEntries (Entries.ofList [("a", defaultProps, .vstr "1")]) = true ∧
     (Entries.ofList [("a", defaultProps, .vstr "1")]).find "missing" = none ∧
     selfSubstitute (c5ns (Entries.ofList [("a", defaultProps, .vstr "1")])) none =
       .ok (c5ns' (Entries.ofList [("a", defaultProps, .vstr "1")]), 0,
            ["node.missing"])) :=
  ⟨⟨rfl,
    (C5_forgiving_lookup_and_driver.1
      (NS.mk forgivingProps (Entries.ofList [("a", defaultProps, .vstr "1")]))
      "missing" ["node"] [] rfl).1 rfl,
    (C5_forgiving_lookup_and_driver.1
      (NS.mk defaultProps (Entries.ofList [("a", defaultProps, .vstr "1")]))
      "missing" ["node"] [] rfl).2 rfl⟩,
   ⟨by decide, rfl,
    C5_forgiving_lookup_and_driver.2 (Entries.ofList [("a", defaultProps, .vstr "1")])
      (by decide) rfl⟩⟩

/-! Lemmas for the escape round-trip: protecting, formatting and restoring
around inert text. -/

theorem plainChar_spec {c : Char} (h : plainChar c = true) :
    c ≠ lbrace ∧ c ≠ rbrace ∧ c ≠ sentL ∧ c ≠ sentR := by
  simp only [plainChar, Bool.and_eq_true, bne_iff_ne, ne_eq, decide_eq_true_eq] at h
  exact ⟨h.1.1.1, h.1.1.2, h.1.2, h.2⟩

theorem protect_cons_plain (c : Char) (t : List Char) (h : plainChar c = true) :
    protectBraces (c :: t) = c :: protectBraces t := by
  obtain ⟨h1, h2, _, _⟩ := plainChar_spec h
  match t with
  | [] => rfl
  | c2 :: cs2 =>
      simp [protectBraces, h1, h2]

theorem protect_plain_front :
    ∀ (pre rest : List Char), (∀ c ∈ pre, plainChar c = true) →
      protectBraces (pre ++ rest) = pre ++ protectBraces rest
  | [], _, _ => rfl
  | c :: pre, rest, h => by
      rw [List.cons_append, protect_cons_plain c _ (h c (by simp)),
        protect_plain_front pre rest (fun c hc => h c (by simp [hc]))]
      rfl

theorem protect_ll (t : List Char) :
    protectBraces (lbrace :: lbrace :: t) = sentL :: protectBraces t := by
  simp [protectBraces]

theorem protect_rr (t : List Char) :
    protectBraces (rbrace :: rbrace :: t) = sentR :: protectBraces t := by
  simp [protectBraces, lbrace_def, rbrace_def]

theorem restore_append :
    ∀ (xs ys : List Char),
      restoreBraces (xs ++ ys) = restoreBraces xs ++ restoreBraces ys
  | [], _ => rfl
  | c :: xs, ys => by
      by_cases h1 : c = sentL
      · simp [restoreBraces, h1, restore_append xs ys]
      · by_cases h2 : c = sentR
        · simp [restoreBraces, h1, h2, sentL_def, sentR_def, restore_append xs ys]
        · simp [restoreBraces, h1, h2, restore_append xs ys]

theorem restore_sentL (t : List Char) :
    restoreBraces (sentL :: t) = lbrace :: lbrace :: restoreBraces t := by
  simp [restoreBraces]

theorem restore_sentR (t : List Char) :
    restoreBraces (sentR :: t) = rbrace :: rbrace :: restoreBraces t := by
  simp [restoreBraces, sentL_def, sentR_def]

theorem restore_plain :
    ∀ (xs : List Char), (∀ c ∈ xs, plainChar c = true) →
      restoreBraces xs = xs
  | [], _ => rfl
  | c :: xs, h => by
      obtain ⟨_, _, h3, h4⟩ := plainChar_spec (h c (by simp))
      simp [restoreBraces, h3, h4, restore_plain xs (fun c hc => h c (by simp [hc]))]

/-- Formatting distributes over a brace-free prefix of the template. -/
theorem fmt_plain_front (ctx : NS) :
    ∀ (pre rest : List Char) (log : Log),
      (∀ c ∈ pre, c ≠ lbrace ∧ c ≠ rbrace) →
      pyFormatAux ctx (pre ++ rest) .lit log =
        (match pyFormatAux ctx rest .lit log with
         | (.ok out, log') => (.ok (pre ++ out), log')
         | (.error e, log') => (.error e, log'))
  | [], rest, log, _ => by
      rcases h : pyFormatAux ctx rest .lit log with ⟨res, log'⟩
      cases res <;> simp [h]
  | c :: pre, rest, log, h => by
      obtain ⟨h1, h2⟩ := h c (by simp)
      have ih := fmt_plain_front ctx pre rest log (fun c hc => h c (by simp [hc]))
      rcases hr : pyFormatAux ctx rest .lit log with ⟨res, log'⟩
      rw [hr] at ih
      cases res <;> simp [pyFormatAux, h1, h2, ih]

/-- The full substitution step fixes a value whose only braces are one
protected escaped pair: protect turns it into sentinels, formatting leaves
the brace-free text alone, restore brings the doubled braces back. -/
theorem substituteString_escaped (ctx : NS) (log : Log)
    (pre lit post : List Char)
    (hpre : ∀ c ∈ pre, plainChar c = true)
    (hlit : ∀ c ∈ lit, plainChar c = true)
    (hpost : ∀ c ∈ post, plainChar c = true) :
    substituteString ctx
      (String.mk (pre ++ lbrace :: lbrace :: (lit ++ rbrace :: rbrace :: post))) log =
      (.ok (String.mk (pre ++ lbrace :: lbrace :: (lit ++ rbrace :: rbrace :: post))),
        log) := by
  have hprot : protectBraces
      (pre ++ lbrace :: lbrace :: (lit ++ rbrace :: rbrace :: post)) =
      pre ++ sentL :: (lit ++ sentR :: post) := by
    rw [protect_plain_front pre _ hpre, protect_ll,
      protect_plain_front lit _ hlit, protect_rr,
      show protectBraces post = post by
        simpa [protectBraces] using protect_plain_front post [] hpost]
  have hplainmid : ∀ c ∈ pre ++ sentL :: (lit ++ sentR :: post),
      c ≠ lbrace ∧ c ≠ rbrace := by
    intro c hc
    simp only [List.mem_append, List.mem_cons] at hc
    rcases hc with hc | hc | hc | hc | hc
    · exact ⟨(plainChar_spec (hpre c hc)).1, (plainChar_spec (hpre c hc)).2.1⟩
    · subst hc
      exact ⟨by simp [sentL_def, lbrace_def], by simp [sentL_def, rbrace_def]⟩
    · exact ⟨(plainChar_spec (hlit c hc)).1, (plainChar_spec (hlit c hc)).2.1⟩
    · subst hc
      exact ⟨by simp [sentR_def, lbrace_def], by simp [sentR_def, rbrace_def]⟩
    · exact ⟨(plainChar_spec (hpost c hc)).1, (plainChar_spec (hpost c hc)).2.1⟩
  have hfmt := fmt_no_braces ctx (pre ++ sentL :: (lit ++ sentR :: post)) log
    hplainmid
  have hrest : restoreBraces (pre ++ sentL :: (lit ++ sentR :: post)) =
      pre ++ lbrace :: lbrace :: (lit ++ rbrace :: rbrace :: post) := by
    rw [restore_append, restore_plain pre hpre, restore_sentL,
      restore_append, restore_plain lit hlit, restore_sentR,
      restore_plain post hpost]
  simp only [substituteString]
  rw [show (String.mk (pre ++ lbrace :: lbrace :: (lit ++ rbrace :: rbrace :: post))).toList =
    pre ++ lbrace :: lbrace :: (lit ++ rbrace :: rbrace :: post) from rfl,
    hprot, hfmt]
  simp [hrest]

theorem Entries.findFull_set_ne :
    ∀ (es : Entries) (k' k : String) (v : Value), k' ≠ k →
      (es.set k' v).findFull k = es.findFull k
  | .nil, k', k, v, h => by
      simp [Entries.set, Entries.findFull, h]
  | .cons n p w rest, k', k, v, h => by
      by_cases hn : n = k'
      · subst hn
        simp [Entries.set, Entries.findFull, h]
      · simp [Entries.set, Entries.findFull, hn,
          Entries.findFull_set_ne rest k' k v h]

theorem NS.findFull_after_set_ne (n : NS) (k' k : String) (v : Value) (h : k' ≠ k) :
    (n.set k' v).findFull k = n.findFull k := by
  cases n
  simp [NS.set, NS.findFull, NS.entries, Entries.findFull_set_ne _ _ _ _ h]

/-- A pass never writes at a key that names none of its entries: the output
keeps the accumulator's full (props and value) record for it. -/
theorem substEntries_findFull_absent :
    ∀ (es : Entries) (out : NS) (subst : Option NS) (log : Log) (k : String),
      k ∉ es.names →
      (substEntries es out subst log).1.findFull k = out.findFull k
  | .nil, _, _, _, _, _ => rfl
  | .cons name props v rest, out, subst, log, k, hk => by
      have hkname : name ≠ k := by
        intro h; exact hk (by simp [Entries.names, h])
      have hkrest : k ∉ rest.names := by
        intro h; exact hk (by simp [Entries.names, h])
      have ih := fun (o : NS) (l : Log) =>
        substEntries_findFull_absent rest o subst l k hkrest
      match v with
      | .vstr s =>
          by_cases hb : lbrace ∈ s.toList
          all_goals simp only [String.toList] at hb
          · rcases hsub : substituteString (subst.getD out) s log with ⟨res, log'⟩
            match res with
            | .ok new =>
                by_cases hnew : new = s
                · simp [substEntries, hb, hsub, hnew, ih]
                · rcases hrec : substEntries rest (out.set name (.vstr new)) subst log'
                    with ⟨o, u, r, l⟩
                  have h2 := ih (out.set name (.vstr new)) log'
                  rw [hrec] at h2
                  simp only [] at h2
                  simp [substEntries, hb, hsub, hnew, hrec]
                  rw [h2, NS.findFull_after_set_ne _ _ _ _ hkname]
            | .error e =>
                rcases hrec : substEntries rest (out.set name (.vexc e)) subst log'
                  with ⟨o, u, r, l⟩
                have h2 := ih (out.set name (.vexc e)) log'
                rw [hrec] at h2
                simp only [] at h2
                simp [substEntries, hb, hsub, hrec]
                rw [h2, NS.findFull_after_set_ne _ _ _ _ hkname]
          · simp [substEntries, hb, ih]
      | .vns c =>
          match c with
          | .mk pc esc =>
            by_cases hm : props.mutable
            · rcases hrec1 : substEntries esc (.mk pc esc) (some (subst.getD out)) log
                with ⟨c', u1, r1, log'⟩
              by_cases hu1 : u1 = 0
              · subst hu1
                rcases hrec : substEntries rest out subst log' with ⟨o, u, r, l⟩
                have h2 := ih out log'
                rw [hrec] at h2
                simp only [] at h2
                simp [substEntries, hm, hrec1, hrec, h2]
              · rcases hrec : substEntries rest (out.set name (.vns c')) subst log'
                  with ⟨o, u, r, l⟩
                have h2 := ih (out.set name (.vns c')) log'
                rw [hrec] at h2
                simp only [] at h2
                simp [substEntries, hm, hrec1, hrec, hu1]
                rw [h2, NS.findFull_after_set_ne _ _ _ _ hkname]
            · simp [substEntries, hm, ih]
      | .vexc e =>
          rcases hrec : substEntries rest out subst log with ⟨o, u, r, l⟩
          have := ih out log
          rw [hrec] at this
          simp [substEntries, hrec, this]
      | .verr s => simp [substEntries, ih]
      | .vint i => simp [substEntries, ih]

/-- `OrderedDict.__setitem__` at an existing key keeps the key list. -/
theorem Entries.set_names_of_mem :
    ∀ (es : Entries) (k : String) (v : Value), k ∈ es.names →
      (es.set k v).names = es.names
  | .nil, k, v, h => by simp [Entries.names] at h
  | .cons n p w rest, k, v, h => by
      by_cases hn : n = k
      · subst hn
        simp [Entries.set, Entries.names]
      · have hk : k ∈ rest.names := by
          rcases (by simpa [Entries.names] using h : k = n ∨ k ∈ rest.names)
            with h1 | h1
          · exact absurd h1.symm hn
          · exact h1
        simp [Entries.set, Entries.names, hn, Entries.set_names_of_mem rest k v hk]

/-- A pass only ever writes at keys of its snapshot, so when those keys all
exist in the accumulator, the output's key list is the accumulator's. -/
theorem substEntries_names :
    ∀ (es : Entries) (out : NS) (subst : Option NS) (log : Log),
      (∀ k, k ∈ es.names → k ∈ out.entries.names) →
      (substEntries es out subst log).1.entries.names = out.entries.names
  | .nil, _, _, _, _ => rfl
  | .cons name props v rest, out, subst, log, hmem => by
      have hname : name ∈ out.entries.names := hmem name (by simp [Entries.names])
      have hrest : ∀ k, k ∈ rest.names → k ∈ out.entries.names :=
        fun k hk => hmem k (by simp [Entries.names, hk])
      have hsetnames : ∀ (w : Value),
          (out.set name w).entries.names = out.entries.names := by
        intro w
        cases out with
        | mk p es0 =>
            simp [NS.set, NS.entries, NS.props,
              Entries.set_names_of_mem es0 name w
                (by simpa [NS.entries] using hname)]
      have hrestset : ∀ (w : Value) (k : String), k ∈ rest.names →
          k ∈ (out.set name w).entries.names := by
        intro w k hk
        rw [hsetnames w]
        exact hrest k hk
      match v with
      | .vstr s =>
          by_cases hb : lbrace ∈ s.toList
          all_goals simp only [String.toList] at hb
          · rcases hsub : substituteString (subst.getD out) s log with ⟨res, log'⟩
            match res with
            | .ok new =>
                by_cases hnew : new = s
                · simp only [substEntries, String.toList, hb, if_true, hsub, hnew,
                    if_pos]
                  exact substEntries_names rest out subst log' hrest
                · rcases hrec : substEntries rest (out.set name (.vstr new)) subst log'
                    with ⟨o, u, r, l⟩
                  have h2 := substEntries_names rest (out.set name (.vstr new)) subst
                    log' (hrestset _)
                  rw [hrec] at h2
                  simp only [] at h2
                  simp [substEntries, hb, hsub, hnew, hrec]
                  rw [h2, hsetnames]
            | .error e =>
                rcases hrec : substEntries rest (out.set name (.vexc e)) subst log'
                  with ⟨o, u, r, l⟩
                have h2 := substEntries_names rest (out.set name (.vexc e)) subst
                  log' (hrestset _)
                rw [hrec] at h2
                simp only [] at h2
                simp [substEntries, hb, hsub, hrec]
                rw [h2, hsetnames]
          · simp only [substEntries, String.toList, hb, if_false]
            exact substEntries_names rest out subst log hrest
      | .vns c =>
          match c with
          | .mk pc esc =>
            by_cases hm : props.mutable
            · rcases hrec1 : substEntries esc (.mk pc esc) (some (subst.getD out)) log
                with ⟨c', u1, r1, log'⟩
              by_cases hu1 : u1 = 0
              · subst hu1
                rcases hrec : substEntries rest out subst log' with ⟨o, u, r, l⟩
                have h2 := substEntries_names rest out subst log' hrest
                rw [hrec] at h2
                simp only [] at h2
                simp [substEntries, hm, hrec1, hrec, h2]
              · rcases hrec : substEntries rest (out.set name (.vns c')) subst log'
                  with ⟨o, u, r, l⟩
                have h2 := substEntries_names rest (out.set name (.vns c')) subst
                  log' (hrestset _)
                rw [hrec] at h2
                simp only [] at h2
                simp [substEntries, hm, hrec1, hrec, hu1]
                rw [h2, hsetnames]
            · simp only [substEntries, hm, Bool.false_eq_true, if_false]
              exact substEntries_names rest out subst log hrest
      | .vexc e =>
          rcases hrec : substEntries rest out subst log with ⟨o, u, r, l⟩
          have h2 := substEntries_names rest out subst log hrest
          rw [hrec] at h2
          simp [substEntries, hrec]
          simpa using h2
      | .verr s =>
          simp only [substEntries]
          exact substEntries_names rest out subst log hrest
      | .vint i =>
          simp only [substEntries]
          exact substEntries_names rest out subst log hrest

/-- An entry whose string value is a fixed point of `substituteString`
against every context keeps its full record through a resolution pass. -/
theorem substEntries_fixed_string_findFull :
    ∀ (es : Entries) (out : NS) (subst : Option NS) (log : Log)
      (name : String) (props : Props) (s : String),
      es.findFull name = some (props, .vstr s) →
      (∀ (ctx : NS) (l : Log), substituteString ctx s l = (.ok s, l)) →
      es.names.Nodup → out.findFull name = some (props, .vstr s) →
      (substEntries es out subst log).1.findFull name = some (props, .vstr s)
  | .nil, _, _, _, _, _, _, hf, _, _, _ => by simp [Entries.findFull] at hf
  | .cons n' p' v' rest, out, subst, log, name, props, s, hf, hfix, hnd, hout => by
      have hnd' := hnd
      rw [show (Entries.cons n' p' v' rest).names = n' :: rest.names from rfl,
        List.nodup_cons] at hnd'
      by_cases hn : n' = name
      · subst hn
        simp [Entries.findFull] at hf
        obtain ⟨hp, hv⟩ := hf
        subst hp
        subst hv
        by_cases hb : lbrace ∈ s.toList
        all_goals simp only [String.toList] at hb
        · have hfixs := hfix (subst.getD out) log
          simp [substEntries, hb, hfixs]
          rw [substEntries_findFull_absent rest out subst log n' hnd'.1]
          exact hout
        · simp [substEntries, hb]
          rw [substEntries_findFull_absent rest out subst log n' hnd'.1]
          exact hout
      · have hf' : rest.findFull name = some (props, .vstr s) := by
          simpa [Entries.findFull, hn] using hf
        have ih := fun (o : NS) (l : Log) (ho : o.findFull name = some (props, .vstr s)) =>
          substEntries_fixed_string_findFull rest o subst l name props s hf' hfix
            hnd'.2 ho
        match v' with
        | .vstr s2 =>
            by_cases hb : lbrace ∈ s2.toList
            all_goals simp only [String.toList] at hb
            · rcases hsub : substituteString (subst.getD out) s2 log with ⟨res, log'⟩
              match res with
              | .ok new =>
                  by_cases hnew : new = s2
                  · simp only [substEntries, String.toList, hb, if_true, hsub, hnew,
                      if_pos]
                    exact ih out log' hout
                  · simp [substEntries, hb, hsub, hnew]
                    exact ih (out.set n' (.vstr new)) log'
                      (by rw [NS.findFull_after_set_ne _ _ _ _ hn]; exact hout)
              | .error e =>
                  simp [substEntries, hb, hsub]
                  exact ih (out.set n' (.vexc e)) log'
                    (by rw [NS.findFull_after_set_ne _ _ _ _ hn]; exact hout)
            · simp only [substEntries, String.toList, hb, if_false]
              exact ih out log hout
        | .vns cc =>
            match cc with
            | .mk pc esc =>
              by_cases hmm : p'.mutable
              · rcases hrec1 : substEntries esc (.mk pc esc) (some (subst.getD out)) log
                  with ⟨c', u1, r1, log'⟩
                by_cases hu1 : u1 = 0
                · subst hu1
                  simp [substEntries, hmm, hrec1]
                  exact ih out log' hout
                · simp [substEntries, hmm, hrec1, hu1]
                  exact ih (out.set n' (.vns c')) log'
                    (by rw [NS.findFull_after_set_ne _ _ _ _ hn]; exact hout)
              · simp only [substEntries, hmm, Bool.false_eq_true, if_false]
                exact ih out log hout
        | .vexc e =>
            rcases hrec : substEntries rest out subst log with ⟨o, u, r, l⟩
            have := ih out log hout
            rw [hrec] at this
            simp [substEntries, hrec]
            simpa using this
        | .verr s2 =>
            simp only [substEntries]
            exact ih out log hout
        | .vint i =>
            simp only [substEntries]
            exact ih out log hout

/-- The driver's fixed-point loop preserves such a fixed-point entry (and the
duplicate-freeness of the key list) through every pass it runs. -/
theorem substLoop_fixed_string :
    ∀ (fuel : Nat) (n : NS) (log : Log)
      (name : String) (props : Props) (s : String),
      n.findFull name = some (props, .vstr s) →
      (∀ (ctx : NS) (l : Log), substituteString ctx s l = (.ok s, l)) →
      n.entries.names.Nodup →
      ∀ (n1 : NS) (r : Nat) (log1 : Log) (k : Nat),
        substLoop fuel n log = some (n1, r, log1, k) →
        n1.findFull name = some (props, .vstr s) ∧ n1.entries.names.Nodup
  | 0, n, log, name, props, s, _, _, _, n1, r, log1, k, h => by
      simp [substLoop] at h
  | fuel + 1, n, log, name, props, s, hf, hfix, hnd, n1, r, log1, k, h => by
      rcases hroot : substRoot n log with ⟨n', u, r', log'⟩
      have hpass : n'.findFull name = some (props, .vstr s) := by
        cases n with
        | mk p es =>
            have hx := substEntries_fixed_string_findFull es (.mk p es) none log
              name props s
              (by simpa [NS.findFull, NS.entries] using hf) hfix
              (by simpa [NS.entries] using hnd)
              (by simpa [NS.findFull, NS.entries] using hf)
            rw [show substEntries es (.mk p es) none log = substRoot (.mk p es) log
              from rfl, hroot] at hx
            exact hx
      have hnames : n'.entries.names = n.entries.names := by
        cases n with
        | mk p es =>
            have hx := substEntries_names es (.mk p es) none log
              (fun k hk => by simpa [NS.entries] using hk)
            rw [show substEntries es (.mk p es) none log = substRoot (.mk p es) log
              from rfl, hroot] at hx
            simpa [NS.entries] using hx
      have hnd' : n1.entries.names.Nodup → True := fun _ => trivial
      have hndp : n'.entries.names.Nodup := by rw [hnames]; exact hnd
      simp only [substLoop, hroot] at h
      by_cases hu : u = 0
      · subst hu
        simp at h
        obtain ⟨h1, h2, h3, h4⟩ := h
        subst h1
        exact ⟨hpass, hndp⟩
      · simp [hu] at h
        rcases hrec : substLoop fuel n' log' with _ | ⟨n2, r2, log2, k2⟩
        · rw [hrec] at h
          simp at h
        · rw [hrec] at h
          simp at h
          obtain ⟨h1, h2, h3, h4⟩ := h
          have hres := substLoop_fixed_string fuel n' log' name props s hpass hfix
            hndp n2 r2 log2 k2 hrec
          rw [← h1]
          exact hres

/-- Collapsing one protected-free escaped pair: `format` turns
`pre \x7b\x7b lit \x7d\x7d post` into `pre \x7b lit \x7d post` when the
surrounding text has no braces. -/
theorem fmt_escaped_collapse (ctx : NS) (log : Log)
    (pre lit post : List Char)
    (hpre : ∀ c ∈ pre, plainChar c = true)
    (hlit : ∀ c ∈ lit, plainChar c = true)
    (hpost : ∀ c ∈ post, plainChar c = true) :
    pyFormatAux ctx (pre ++ lbrace :: lbrace :: (lit ++ rbrace :: rbrace :: post))
        .lit log =
      (.ok (pre ++ lbrace :: (lit ++ rbrace :: post)), log) := by
  have hpost1 : pyFormatAux ctx post .lit log = (.ok post, log) :=
    fmt_no_braces ctx post log
      (fun c hc => ⟨(plainChar_spec (hpost c hc)).1, (plainChar_spec (hpost c hc)).2.1⟩)
  have h2 : pyFormatAux ctx (rbrace :: rbrace :: post) .lit log =
      (.ok (rbrace :: post), log) := by
    simp [pyFormatAux, lbrace_def, rbrace_def, hpost1]
  have h3 : pyFormatAux ctx (lit ++ rbrace :: rbrace :: post) .lit log =
      (.ok (lit ++ rbrace :: post), log) := by
    rw [fmt_plain_front ctx lit _ log
      (fun c hc => ⟨(plainChar_spec (hlit c hc)).1, (plainChar_spec (hlit c hc)).2.1⟩),
      h2]
  have h4 : pyFormatAux ctx (lbrace :: lbrace :: (lit ++ rbrace :: rbrace :: post))
      .lit log = (.ok (lbrace :: (lit ++ rbrace :: post)), log) := by
    simp [pyFormatAux, h3]
  rw [fmt_plain_front ctx pre _ log
    (fun c hc => ⟨(plainChar_spec (hpre c hc)).1, (plainChar_spec (hpre c hc)).2.1⟩)]
  simp [h4]

/-- Brace finalization never writes at a key that names none of its entries. -/
theorem finalizeEntries_find_absent :
    ∀ (es : Entries) (out : NS) (acc : Bool) (k : String),
      k ∉ es.names →
      ∀ (o : NS) (b : Bool), finalizeEntries es out acc = .ok (o, b) →
        o.find k = out.find k
  | .nil, out, acc, k, _, o, b, h => by
      simp [finalizeEntries] at h
      rw [h.1]
  | .cons name props v rest, out, acc, k, hk, o, b, h => by
      have hkname : name ≠ k := by
        intro he; exact hk (by simp [Entries.names, he])
      have hkrest : k ∉ rest.names := by
        intro he; exact hk (by simp [Entries.names, he])
      match v with
      | .vstr s =>
          rcases hfmt : (pyFormatAux emptyNS s.toList .lit []).1 with e | cs
          all_goals simp only [String.toList] at hfmt
          · simp [finalizeEntries, hfmt] at h
          · by_cases heq : String.mk cs = s
            · simp [finalizeEntries, hfmt, heq] at h
              exact finalizeEntries_find_absent rest out acc k hkrest o b h
            · simp [finalizeEntries, hfmt, heq] at h
              rw [finalizeEntries_find_absent rest
                  (out.set name (.vstr (String.mk cs))) true k hkrest o b h,
                NS.find_after_set_ne _ _ _ _ hkname]
      | .verr s =>
          rcases hfmt : (pyFormatAux emptyNS s.toList .lit []).1 with e | cs
          all_goals simp only [String.toList] at hfmt
          · simp [finalizeEntries, hfmt] at h
          · by_cases heq : String.mk cs = s
            · simp [finalizeEntries, hfmt, heq] at h
              exact finalizeEntries_find_absent rest out acc k hkrest o b h
            · simp [finalizeEntries, hfmt, heq] at h
              rw [finalizeEntries_find_absent rest
                  (out.set name (.vstr (String.mk cs))) true k hkrest o b h,
                NS.find_after_set_ne _ _ _ _ hkname]
      | .vns c =>
          match c with
          | .mk pc esc =>
            by_cases hm : props.mutable
            · rcases hfc : finalizeEntries esc (.mk pc esc) false with e | cb
              · simp [finalizeEntries, hm, hfc] at h
              · rcases cb with ⟨c', changed⟩
                by_cases hch : changed = true
                · subst hch
                  simp [finalizeEntries, hm, hfc] at h
                  rw [finalizeEntries_find_absent rest
                      (out.set name (.vns c')) true k hkrest o b h,
                    NS.find_after_set_ne _ _ _ _ hkname]
                · have hch' : changed = false := by simpa using hch
                  subst hch'
                  simp [finalizeEntries, hm, hfc] at h
                  exact finalizeEntries_find_absent rest out acc k hkrest o b h
            · simp only [finalizeEntries, hm, Bool.false_eq_true, if_false] at h
              exact finalizeEntries_find_absent rest out acc k hkrest o b h
      | .vexc e =>
          simp only [finalizeEntries] at h
          exact finalizeEntries_find_absent rest out acc k hkrest o b h
      | .vint i =>
          simp only [finalizeEntries] at h
          exact finalizeEntries_find_absent rest out acc k hkrest o b h

/-- When brace finalization succeeds, an entry holding one escaped pair
surrounded by inert text comes out with the escape collapsed to single
braces. -/
theorem finalizeEntries_escaped_find :
    ∀ (es : Entries) (out : NS) (acc : Bool) (name : String) (props : Props)
      (pre lit post : List Char),
      (∀ c ∈ pre, plainChar c = true) →
      (∀ c ∈ lit, plainChar c = true) →
      (∀ c ∈ post, plainChar c = true) →
      es.findFull name = some (props,
        .vstr (String.mk (pre ++ lbrace :: lbrace ::
          (lit ++ rbrace :: rbrace :: post)))) →
      es.names.Nodup →
      ∀ (o : NS) (b : Bool), finalizeEntries es out acc = .ok (o, b) →
        o.find name = some (.vstr (String.mk (pre ++ lbrace :: (lit ++ rbrace :: post))))
  | .nil, _, _, name, _, _, _, _, _, _, _, hf, _, _, _, _ => by
      simp [Entries.findFull] at hf
  | .cons n' p' v' rest, out, acc, name, props, pre, lit, post,
      hpre, hlit, hpost, hf, hnd, o, b, h => by
      have hnd' := hnd
      rw [show (Entries.cons n' p' v' rest).names = n' :: rest.names from rfl,
        List.nodup_cons] at hnd'
      by_cases hn : n' = name
      · subst hn
        simp [Entries.findFull] at hf
        obtain ⟨hp, hv⟩ := hf
        subst hp
        subst hv
        have hfmt : (pyFormatAux emptyNS
            (String.mk (pre ++ lbrace :: lbrace ::
              (lit ++ rbrace :: rbrace :: post))).toList .lit []).1
            = .ok (pre ++ lbrace :: (lit ++ rbrace :: post)) := by
          rw [show (String.mk (pre ++ lbrace :: lbrace ::
              (lit ++ rbrace :: rbrace :: post))).toList
              = pre ++ lbrace :: lbrace :: (lit ++ rbrace :: rbrace :: post)
              from rfl,
            fmt_escaped_collapse emptyNS [] pre lit post hpre hlit hpost]
        have hne : String.mk (pre ++ lbrace :: (lit ++ rbrace :: post)) ≠
            String.mk (pre ++ lbrace :: lbrace ::
              (lit ++ rbrace :: rbrace :: post)) := by
          intro he
          have hlq : pre ++ lbrace :: (lit ++ rbrace :: post)
              = pre ++ lbrace :: lbrace :: (lit ++ rbrace :: rbrace :: post) :=
            congrArg String.toList he
          have hlen := congrArg List.length hlq
          simp only [List.length_append, List.length_cons] at hlen
          omega
        simp only [String.toList] at hfmt
        simp [finalizeEntries, hfmt, hne] at h
        rw [finalizeEntries_find_absent rest
            (out.set n' (.vstr (String.mk (pre ++ lbrace :: (lit ++ rbrace :: post)))))
            true n' hnd'.1 o b h,
          NS.find_after_set_eq]
      · have hf' : rest.findFull name = some (props,
            .vstr (String.mk (pre ++ lbrace :: lbrace ::
              (lit ++ rbrace :: rbrace :: post)))) := by
          simpa [Entries.findFull, hn] using hf
        have ih := fun (o2 : NS) (acc2 : Bool) =>
          finalizeEntries_escaped_find rest o2 acc2 name props pre lit post
            hpre hlit hpost hf' hnd'.2 o b
        match v' with
        | .vstr s2 =>
            rcases hfmt : (pyFormatAux emptyNS s2.toList .lit []).1 with e | cs
            all_goals simp only [String.toList] at hfmt
            · simp [finalizeEntries, hfmt] at h
            · by_cases heq : String.mk cs = s2
              · simp [finalizeEntries, hfmt, heq] at h
                exact ih out acc h
              · simp [finalizeEntries, hfmt, heq] at h
                exact ih (out.set n' (.vstr (String.mk cs))) true h
        | .verr s2 =>
            rcases hfmt : (pyFormatAux emptyNS s2.toList .lit []).1 with e | cs
            all_goals simp only [String.toList] at hfmt
            · simp [finalizeEntries, hfmt] at h
            · by_cases heq : String.mk cs = s2
              · simp [finalizeEntries, hfmt, heq] at h
                exact ih out acc h
              · simp [finalizeEntries, hfmt, heq] at h
                exact ih (out.set n' (.vstr (String.mk cs))) true h
        | .vns c =>
            match c with
            | .mk pc esc =>
              by_cases hm : p'.mutable
              · rcases hfc : finalizeEntries esc (.mk pc esc) false with e | cb
                · simp [finalizeEntries, hm, hfc] at h
                · rcases cb with ⟨c', changed⟩
                  by_cases hch : changed = true
                  · subst hch
                    simp [finalizeEntries, hm, hfc] at h
                    exact ih (out.set n' (.vns c')) true h
                  · have hch' : changed = false := by simpa using hch
                    subst hch'
                    simp [finalizeEntries, hm, hfc] at h
                    exact ih out acc h
              · simp only [finalizeEntries, hm, Bool.false_eq_true, if_false] at h
                exact ih out acc h
        | .vexc e =>
            simp only [finalizeEntries] at h
            exact ih out acc h
        | .vint i =>
            simp only [finalizeEntries] at h
            exact ih out acc h

/-- C2 (corrected).  An entry whose string value is an escaped brace pair
`\x7b\x7blit\x7d\x7d` surrounded by inert (brace- and sentinel-free) text is a
fixed point of every resolution pass — the driver loop keeps it verbatim,
props included — and whenever `self_substitute` returns successfully, the
entry's final value has the escape collapsed to `\x7blit\x7d`.  (The spec's
unconditional claim fails for entries whose formatting raises: see the
counterexample, where the stored exception replaces the whole value.) -/
theorem C2_escape_roundtrip (n : NS) (name : String) (props : Props)
    (pre lit post : List Char)
    (hpre : ∀ c ∈ pre, plainChar c = true)
    (hlit : ∀ c ∈ lit, plainChar c = true)
    (hpost : ∀ c ∈ post, plainChar c = true)
    (hf : n.findFull name = some (props,
      .vstr (String.mk (pre ++ lbrace :: lbrace ::
        (lit ++ rbrace :: rbrace :: post)))))
    (hnd : n.entries.names.Nodup) :
    (∀ (fuel : Nat) (n1 : NS) (r : Nat) (log1 : Log) (k : Nat),
       substLoop fuel n [] = some (n1, r, log1, k) →
       n1.findFull name = some (props,
         .vstr (String.mk (pre ++ lbrace :: lbrace ::
           (lit ++ rbrace :: rbrace :: post))))) ∧
    (∀ (n' : NS) (u : Nat) (f : List String),
       selfSubstitute n none = .ok (n', u, f) →
       n'.find name = some (.vstr (String.mk (pre ++ lbrace ::
         (lit ++ rbrace :: post))))) := by
  have hfix : ∀ (ctx : NS) (l : Log),
      substituteString ctx
        (String.mk (pre ++ lbrace :: lbrace :: (lit ++ rbrace :: rbrace :: post))) l =
      (.ok (String.mk (pre ++ lbrace :: lbrace :: (lit ++ rbrace :: rbrace :: post))), l) :=
    fun ctx l => substituteString_escaped ctx l pre lit post hpre hlit hpost
  constructor
  · intro fuel n1 r log1 k hloop
    exact (substLoop_fixed_string fuel n [] name props _ hf hfix hnd
      n1 r log1 k hloop).1
  · intro n' u f hok
    rcases hloop : substLoop 10 n [] with _ | ⟨n1, r, log1, k⟩
    · simp [selfSubstitute, hloop] at hok
    · obtain ⟨hf1, hnd1⟩ := substLoop_fixed_string 10 n [] name props _ hf hfix hnd
        n1 r log1 k hloop
      rcases hfin : finalizeNode n1 with e | nb
      · simp [selfSubstitute, hloop, hfin] at hok
      · rcases nb with ⟨n2, b⟩
        simp [selfSubstitute, hloop, hfin] at hok
        cases n1 with
        | mk p1 es1 =>
            have hres := finalizeEntries_escaped_find es1 (.mk p1 es1) false
              name props pre lit post hpre hlit hpost
              (by simpa [NS.findFull, NS.entries] using hf1)
              (by simpa [NS.entries] using hnd1)
              n2 b (by simpa [finalizeNode] using hfin)
            rw [← hok.1]
            exact hres

theorem C2_escape_roundtrip_witness :
    ((∀ c ∈ ['A'], plainChar c = true) ∧
     (∀ c ∈ ['l', 'i', 't'], plainChar c = true) ∧
     (∀ c ∈ ['B'], plainChar c = true) ∧
     rtNS.findFull "a" = some (defaultProps,
       .vstr (String.mk (['A'] ++ lbrace :: lbrace ::
         (['l', 'i', 't'] ++ rbrace :: rbrace :: ['B'])))) ∧
     rtNS.entries.names.Nodup) ∧
    ((∀ (fuel : Nat) (n1 : NS) (r : Nat) (log1 : Log) (k : Nat),
        substLoop fuel rtNS [] = some (n1, r, log1, k) →
        n1.findFull "a" = some (defaultProps,
          .vstr (String.mk (['A'] ++ lbrace :: lbrace ::
            (['l', 'i', 't'] ++ rbrace :: rbrace :: ['B']))))) ∧
     (∀ (n' : NS) (u : Nat) (f : List String),
        selfSubstitute rtNS none = .ok (n', u, f) →
        n'.find "a" = some (.vstr (String.mk (['A'] ++ lbrace ::
          (['l', 'i', 't'] ++ rbrace :: ['B'])))))) :=
  ⟨⟨by decide, by decide, by decide, rfl, by decide⟩,
   C2_escape_roundtrip rtNS "a" defaultProps ['A'] ['l', 'i', 't'] ['B']
     (by decide) (by decide) (by decide) rfl (by decide)⟩

/-- C10 (confirmed).  A resolution pass is copy-on-write: modelled by value
passing, the pass returns the very namespace it was invoked on exactly when
it reports zero updates — zero updates mean nothing was ever written, and any
update strictly changes some entry of the output (for duplicate-free key
sets, which `OrderedDict`-backed namespaces always have). -/
theorem C10_copy_on_write_identity (n : NS) (log : Log)
    (hnd : n.nodupTree = true) :
    (substRoot n log).2.1 = 0 ↔ (substRoot n log).1 = n := by
  cases n with
  | mk p es =>
      simp only [substRoot]
      constructor
      · intro h
        exact substEntries_zero_updates es (.mk p es) none log h
      · intro h
        by_contra hu
        obtain ⟨k, _, hne⟩ :=
          substEntries_update_changes es (.mk p es) none log
            (by simpa [NS.nodupTree, NS.entries] using hnd) hu
        apply hne
        rw [h]
        rfl

theorem C10_copy_on_write_identity_witness :
    (cycleNS.nodupTree = true) ∧
    ((substRoot cycleNS []).2.1 = 0 ↔ (substRoot cycleNS []).1 = cycleNS) :=
  ⟨rfl, C10_copy_on_write_identity cycleNS [] rfl⟩

/-- C3 (corrected).  For a namespace at a fixed point — a resolution pass on
it reports zero updates — `self_substitute` performs zero further updates:
the pass leaves the namespace unchanged, the driver loop breaks after that
single zero-update pass, and whenever the call returns (the
brace-finalization pass may still raise), the returned unresolved count is
exactly the fixed-point pass's count. -/
theorem C3_fixed_point_zero_updates (n : NS)
    (h : (substRoot n []).2.1 = 0) :
    (substRoot n []).1 = n ∧
    substLoop 10 n [] =
      some (n, (substRoot n []).2.2.1, (substRoot n []).2.2.2, 1) ∧
    (∀ (m : NS) (u : Nat) (f : List String),
       selfSubstitute n none = .ok (m, u, f) → u = (substRoot n []).2.2.1) := by
  have h1 : (substRoot n []).1 = n := by
    cases n with
    | mk p es => exact substEntries_zero_updates es (.mk p es) none [] h
  rcases hroot : substRoot n [] with ⟨n', u0, r0, log0⟩
  rw [hroot] at h h1
  simp only [] at h h1
  have hloop : substLoop 10 n [] = some (n, r0, log0, 1) := by
    simp [substLoop, hroot, h, h1]
  refine ⟨by simpa using h1, by simpa using hloop, ?_⟩
  intro m u f hok
  rcases hfin : finalizeNode n with e | nb
  · simp [selfSubstitute, hloop, hfin] at hok
  · rcases nb with ⟨n2, b⟩
    simp only []
    simp [selfSubstitute, hloop, hfin] at hok
    exact hok.2.1.symm

theorem C3_fixed_point_zero_updates_witness :
    ((substRoot (NS.of [("a", defaultProps, .vstr "hello")]) []).2.1 = 0) ∧
    ((substRoot (NS.of [("a", defaultProps, .vstr "hello")]) []).1 =
       NS.of [("a", defaultProps, .vstr "hello")] ∧
     substLoop 10 (NS.of [("a", defaultProps, .vstr "hello")]) [] =
       some (NS.of [("a", defaultProps, .vstr "hello")],
         (substRoot (NS.of [("a", defaultProps, .vstr "hello")]) []).2.2.1,
         (substRoot (NS.of [("a", defaultProps, .vstr "hello")]) []).2.2.2, 1) ∧
     (∀ (m : NS) (u : Nat) (f : List String),
        selfSubstitute (NS.of [("a", defaultProps, .vstr "hello")]) none =
          .ok (m, u, f) →
        u = (substRoot (NS.of [("a", defaultProps, .vstr "hello")]) []).2.2.1)) :=
  ⟨rfl, C3_fixed_point_zero_updates (NS.of [("a", defaultProps, .vstr "hello")]) rfl⟩

/-- C6 (corrected).  An entry recorded with `mutable=False` whose value is a
child namespace is excluded from substitution entirely: after a resolution
pass its value in the output namespace is identical to its input value (for
duplicate-free keys).  String leaves are not covered by the flag — see the
counterexample. -/
theorem C6_immutable_namespace_entry_untouched (n : NS) (log : Log)
    (name : String) (props : Props) (c : NS)
    (hf : n.findFull name = some (props, .vns c))
    (hm : props.mutable = false)
    (hnd : n.entries.names.Nodup) :
    (substRoot n log).1.find name = some (.vns c) := by
  cases n with
  | mk p es =>
      simp only [substRoot]
      exact substEntries_immutable_find es (.mk p es) none log name props c
        (by simpa [NS.findFull, NS.entries] using hf) hm
        (by simpa [NS.entries] using hnd)
        (by simp [NS.find, NS.entries]
            exact Entries.find_of_findFull es name props (.vns c)
              (by simpa [NS.findFull, NS.entries] using hf))

theorem C6_immutable_namespace_entry_untouched_witness :
    (immChildNS.findFull "c" = some (immutableLeafProps, .vns immChildInner) ∧
     immutableLeafProps.mutable = false ∧
     immChildNS.entries.names.Nodup) ∧
    (substRoot immChildNS []).1.find "c" = some (.vns immChildInner) :=
  ⟨⟨rfl, rfl, by decide⟩,
   C6_immutable_namespace_entry_untouched immChildNS [] "c" immutableLeafProps
     immChildInner rfl rfl (by decide)⟩

/-- C4 (confirmed).  A formatting failure on one entry during a resolution
pass is captured locally: the exception is stored as that entry's value and
counted as one update and one unresolved, and the pass simply continues with
the remaining (sibling) entries — there is no error channel out of the pass
at all.  An entry already holding a stored exception counts as unresolved on
later passes but is left untouched (never retried).  The last conjunct shows
a whole pass on a two-entry namespace whose first entry fails: the sibling is
still substituted in the same pass, against the output holding the stored
error. -/
theorem C4_format_failure_captured_locally :
    (∀ (name : String) (props : Props) (s : String) (rest : Entries)
       (out : NS) (log log' : Log) (e : PyExc),
       lbrace ∈ s.toList →
       substituteString out s log = (.error e, log') →
       substEntries (.cons name props (.vstr s) rest) out none log =
         (let t := substEntries rest (out.set name (.vexc e)) none log'
          (t.1, t.2.1 + 1, t.2.2.1 + 1, t.2.2.2))) ∧
    (∀ (name : String) (props : Props) (e : PyExc) (rest : Entries)
       (out : NS) (log : Log),
       substEntries (.cons name props (.vexc e) rest) out none log =
         (let t := substEntries rest out none log
          (t.1, t.2.1, t.2.2.1 + 1, t.2.2.2))) ∧
    (∀ (n1 n2 s1 s2 : String) (e : PyExc) (new : String) (log1 log2 : Log),
       lbrace ∈ s1.toList → lbrace ∈ s2.toList →
       substituteString (NS.of [(n1, defaultProps, .vstr s1),
                                (n2, defaultProps, .vstr s2)]) s1 []
         = (.error e, log1) →
       substituteString ((NS.of [(n1, defaultProps, .vstr s1),
                                 (n2, defaultProps, .vstr s2)]).set n1 (.vexc e)) s2 log1
         = (.ok new, log2) →
       new ≠ s2 →
       substRoot (NS.of [(n1, defaultProps, .vstr s1), (n2, defaultProps, .vstr s2)]) []
         = (((NS.of [(n1, defaultProps, .vstr s1),
                     (n2, defaultProps, .vstr s2)]).set n1 (.vexc e)).set n2 (.vstr new),
            2, 1, log2)) := by
  refine ⟨?_, ?_, ?_⟩
  · intro name props s rest out log log' e hmem hsub
    simp only [String.toList] at hmem
    simp [substEntries, hmem, hsub]
  · intro name props e rest out log
    simp [substEntries]
  · intro n1 n2 s1 s2 e new log1 log2 hm1 hm2 hsub1 hsub2 hne
    simp only [String.toList] at hm1 hm2
    simp only [NS.of, Entries.ofList] at hsub1 hsub2
    simp [substRoot, NS.of, Entries.ofList, substEntries, hm1, hm2,
      hsub1, hsub2, hne]

theorem C4_format_failure_captured_locally_witness :
    (lbrace ∈ "\x7bq\x7d".toList ∧ lbrace ∈ "\x7ba\x7d".toList ∧
     substituteString (NS.of [("a", defaultProps, .vstr "\x7bq\x7d"),
                              ("b", defaultProps, .vstr "\x7ba\x7d")]) "\x7bq\x7d" []
       = (.error (.keyError "q"), []) ∧
     substituteString ((NS.of [("a", defaultProps, .vstr "\x7bq\x7d"),
                               ("b", defaultProps, .vstr "\x7ba\x7d")]).set "a"
                        (.vexc (.keyError "q"))) "\x7ba\x7d" []
       = (.ok "'q'", []) ∧
     "'q'" ≠ "\x7ba\x7d") ∧
    substRoot (NS.of [("a", defaultProps, .vstr "\x7bq\x7d"),
                      ("b", defaultProps, .vstr "\x7ba\x7d")]) []
      = (((NS.of [("a", defaultProps, .vstr "\x7bq\x7d"),
                  ("b", defaultProps, .vstr "\x7ba\x7d")]).set "a"
            (.vexc (.keyError "q"))).set "b" (.vstr "'q'"), 2, 1, []) :=
  ⟨⟨by decide, by decide, rfl, rfl, by decide⟩,
   C4_format_failure_captured_locally.2.2 "a" "b" "\x7bq\x7d" "\x7ba\x7d"
     (.keyError "q") "'q'" [] [] (by decide) (by decide) rfl rfl (by decide)⟩

theorem C9_empty_match_behaviour_witness :
    parseDtype reqFileSchema.dtype = some Dtype.dfile ∧
    (isFileD Dtype.dfile ∨ isFileListD Dtype.dfile) ∧
    emptyFS.glob "nomatch*" = [] ∧
    reqFileSchema.choices = [] ∧
    hasLoneBrace "nomatch*".toList = false ∧
    validateParameters [("f", .pstr "nomatch*")] [("f", reqFileSchema)]
        none [] true true true emptyFS =
      (if reqFileSchema.required ∧ true then
        .error (.parameterValidationError ("f" ++ ": nothing matches '" ++ "nomatch*" ++ "'"))
      else .ok [("f", if isFileListD Dtype.dfile then .plist [] else .pstr "")]) :=
  ⟨rfl, by simp [isFileD], rfl, rfl, by decide,
    C9_empty_match_behaviour "f" "nomatch*" reqFileSchema Dtype.dfile
      true true true emptyFS rfl (by simp [isFileD]) rfl rfl (by decide)⟩

end Scabha
